import Mathlib

/-!
Verification of the SOON data-format engine (lexer, parser, evaluator,
serializer, stream parser) against its natural-language specification.

The TypeScript sources are shallowly embedded: text is `List Char`,
JavaScript objects are insertion-ordered association lists, machine
numbers are exact integers plus an uninterpreted float-literal tag
(no claim below depends on IEEE float formatting or arithmetic), and
every fallible operation returns `Except`.  Mutable classes become
explicit state passing; `while` loops become fuel-indexed recursion
(fuel exhaustion is a distinguished error, and every entry point seeds
fuel generously).  Token `line`/`column`/`raw` fields are
diagnostic-only in the source (they never influence control flow or any
produced value) and are omitted from the embedding.
-/

namespace Soon

/-- Characters `0`..`9`, mirroring `Lexer.isDigit`. -/
def isDigit (c : Char) : Bool :=
  '0' ≤ c && c ≤ '9'

/-- Mirrors `Lexer.isIdentifierStart`: ASCII letters and underscore. -/
def isIdentifierStart (c : Char) : Bool :=
  ('a' ≤ c && c ≤ 'z') || ('A' ≤ c && c ≤ 'Z') || c = '_'

/-- Mirrors `Lexer.isWordChar`: letters, digits, `_ - . / @ +`. -/
def isWordChar (c : Char) : Bool :=
  ('a' ≤ c && c ≤ 'z') || ('A' ≤ c && c ≤ 'Z') || ('0' ≤ c && c ≤ '9') ||
    c = '_' || c = '-' || c = '.' || c = '/' || c = '@' || c = '+'

/-- JavaScript numbers as they occur in this code base: integer values
(`parseInt` results and integer literals) are kept exactly; a value
produced by `parseFloat` on a literal containing `.`, `e` or `E` is kept
as that literal, uninterpreted (no claim inspects such a value). -/
inductive JsNumber where
  | int (n : Int)
  | float (lit : List Char)
  deriving Repr, DecidableEq

/-- The `SoonValue` variant from `types.ts`: null, boolean, number,
string, `Date` (kept as its text), `Uint8Array` (byte list), array, and
object (insertion-ordered association list, as JavaScript objects are
for the non-numeric keys used throughout; no claim depends on the
special enumeration order of integer-like keys). -/
inductive Value where
  | vnull
  | vbool (b : Bool)
  | vnum (n : JsNumber)
  | vstr (s : List Char)
  | vdate (lit : List Char)
  | vbin (bytes : List Nat)
  | varr (elems : List Value)
  | vobj (fields : List (List Char × Value))
  deriving Repr

/-- JavaScript object assignment `o[k] = v`: overwrite in place when the
key exists, else append (insertion order preserved). -/
def objSet (fields : List (List Char × Value)) (k : List Char) (v : Value) :
    List (List Char × Value) :=
  match fields with
  | [] => [(k, v)]
  | (k', v') :: rest =>
      if k' = k then (k', v) :: rest else (k', v') :: objSet rest k v

/-- The token kinds actually produced by `Lexer` (the `BINARY`,
brace/bracket, anchor, reference and type-hint members of the `TokenType`
enum are never emitted and are omitted). -/
inductive TokenType where
  | NULL | BOOLEAN | NUMBER | STRING | DATE
  | IDENTIFIER | COLON | PIPE
  | NEWLINE | INDENT | DEDENT | EOF | COMMENT
  deriving Repr, DecidableEq

/-- A token: kind plus text. -/
structure Token where
  type : TokenType
  value : List Char
  deriving Repr, DecidableEq

/-- Lexer errors (`LexError` in the spec's taxonomy), plus the
distinguished fuel marker used by the fuel-indexed loops of the
embedding. -/
inductive Err where
  | unexpectedChar (c : Char)
  | unterminated
  | unterminatedNewline
  | dupKey (k : List Char)
  | maxDepth
  | invalidDate (lit : List Char)
  | unknownNode
  | undefinedAnchor (n : List Char)
  | fuel
  deriving Repr, DecidableEq

/-- Mutable state of `Lexer`: remaining input, indent stack (top at the
head; the JS array keeps the top at the end), pending dedent counter and
the at-line-start flag. -/
structure LexState where
  rest : List Char
  stack : List Nat
  pending : Nat
  atLineStart : Bool
  deriving Repr, DecidableEq

/-- Mirrors `Lexer.handleEscape`. -/
def handleEscape (c : Char) : Char :=
  if c = 'n' then '\n'
  else if c = 't' then '\t'
  else if c = 'r' then '\r'
  else if c = '"' then '"'
  else if c = '\\' then '\\'
  else c

/-- Mirrors `Lexer.scanQuotedString`'s loop, after the opening quote has
been consumed: returns the unescaped value and the input after the
closing quote.  A backslash at end of input falls through to the
unterminated-string error, as in the source. -/
def scanQuotedBody : List Char → Except Err (List Char × List Char)
  | [] => .error .unterminated
  | c :: rest =>
      if c = '"' then .ok ([], rest)
      else if c = '\\' then
        match rest with
        | [] => .error .unterminated
        | e :: rest' => do
            let (v, r) ← scanQuotedBody rest'
            .ok (handleEscape e :: v, r)
      else if c = '\n' then .error .unterminatedNewline
      else do
        let (v, r) ← scanQuotedBody rest
        .ok (c :: v, r)

/-- The optional negative sign consumed first by `Lexer.scanNumber`. -/
def scanSign (cs : List Char) : List Char × List Char :=
  match cs with
  | c :: t => if c = '-' then (['-'], t) else (([] : List Char), cs)
  | [] => (([] : List Char), cs)

/-- The optional `.`+digits decimal part of `Lexer.scanNumber` (the dot
is consumed only when a digit follows it). -/
def scanFrac (cs : List Char) : List Char × List Char :=
  match cs with
  | c :: t =>
      if c = '.' then
        match t with
        | d :: _ =>
            if isDigit d then ('.' :: t.takeWhile isDigit, t.dropWhile isDigit)
            else (([] : List Char), cs)
        | [] => (([] : List Char), cs)
      else (([] : List Char), cs)
  | [] => (([] : List Char), cs)

/-- The optional exponent part of `Lexer.scanNumber`: `e`/`E`, an
optional sign, then digits (possibly none, as in the source). -/
def scanExp (cs : List Char) : List Char × List Char :=
  match cs with
  | e :: t =>
      if e = 'e' || e = 'E' then
        let (es, t2) :=
          match t with
          | s :: t' => if s = '+' || s = '-' then ([e, s], t') else ([e], t)
          | [] => ([e], t)
        (es ++ t2.takeWhile isDigit, t2.dropWhile isDigit)
      else (([] : List Char), cs)
  | [] => (([] : List Char), cs)

/-- The number-shaped text consumed by `Lexer.scanNumber` before its
trailing word-character check: optional sign, integer digits, optional
`.`+digits, optional exponent part.  Returns the text and the rest. -/
def numScanText (cs : List Char) : List Char × List Char :=
  let (sgn, cs1) := scanSign cs
  let intPart := cs1.takeWhile isDigit
  let cs2 := cs1.dropWhile isDigit
  let (frac, cs3) := scanFrac cs2
  let (ex, cs4) := scanExp cs3
  (sgn ++ intPart ++ frac ++ ex, cs4)

/-- Mirrors `Lexer.scanNumber`: scan the numeric shape; if the next
character is a word character, extend over the whole word run and return
a STRING token, else return a NUMBER token. -/
def scanNumber (cs : List Char) : Token × List Char :=
  match (numScanText cs).2 with
  | c :: _ =>
      if isWordChar c then
        (⟨.STRING, (numScanText cs).1 ++ (numScanText cs).2.takeWhile isWordChar⟩,
          (numScanText cs).2.dropWhile isWordChar)
      else (⟨.NUMBER, (numScanText cs).1⟩, (numScanText cs).2)
  | [] => (⟨.NUMBER, (numScanText cs).1⟩, (numScanText cs).2)

/-- Basic ISO-8601 detection, mirroring the `Lexer.isISODate` regular
expression `YYYY-MM-DD(THH:MM(:SS)?(.fff)?(Z|±HH:MM)?)?`. -/
def isISODate (cs : List Char) : Bool :=
  match cs with
  | y1 :: y2 :: y3 :: y4 :: '-' :: m1 :: m2 :: '-' :: d1 :: d2 :: rest =>
      isDigit y1 && isDigit y2 && isDigit y3 && isDigit y4 &&
      isDigit m1 && isDigit m2 && isDigit d1 && isDigit d2 &&
      (match rest with
       | [] => true
       | 'T' :: h1 :: h2 :: ':' :: n1 :: n2 :: rest2 =>
           isDigit h1 && isDigit h2 && isDigit n1 && isDigit n2 &&
           isoTail rest2
       | _ => false)
  | _ => false
where
  /-- The optional seconds, fraction and zone suffixes. -/
  isoTail (cs : List Char) : Bool :=
    let (cs1, okSec) :=
      match cs with
      | ':' :: s1 :: s2 :: t =>
          if isDigit s1 && isDigit s2 then (t, true) else (cs, true)
      | _ => (cs, true)
    let (cs2, okFrac) :=
      match cs1 with
      | '.' :: t =>
          let ds := t.takeWhile isDigit
          if ds.isEmpty then (cs1, true) else (t.dropWhile isDigit, true)
      | _ => (cs1, true)
    okSec && okFrac &&
      (match cs2 with
       | [] => true
       | ['Z'] => true
       | z :: h1 :: h2 :: ':' :: n1 :: n2 :: [] =>
           (z = '+' || z = '-') && isDigit h1 && isDigit h2 &&
             isDigit n1 && isDigit n2
       | _ => false)

/-- Mirrors `Lexer.scanWord`: take the word-character run and classify
it as BOOLEAN / NULL / DATE / IDENTIFIER. -/
def scanWord (cs : List Char) : Token × List Char :=
  let text := cs.takeWhile isWordChar
  let rest := cs.dropWhile isWordChar
  if text = "true".toList || text = "false".toList then (⟨.BOOLEAN, text⟩, rest)
  else if text = "null".toList then (⟨.NULL, text⟩, rest)
  else if isISODate text then (⟨.DATE, text⟩, rest)
  else (⟨.IDENTIFIER, text⟩, rest)

/-- Whitespace as JavaScript `String.prototype.trim` sees it (the
subset relevant here). -/
def isJsSpace (c : Char) : Bool :=
  c = ' ' || c = '\t' || c = '\n' || c = '\r'

/-- JavaScript `text.trim()`. -/
def jsTrim (cs : List Char) : List Char :=
  ((cs.dropWhile isJsSpace).reverse.dropWhile isJsSpace).reverse

/-- Mirrors `Lexer.scanComment`: text up to end of line, trimmed. -/
def scanComment (cs : List Char) : Token × List Char :=
  let text := cs.takeWhile (· ≠ '\n')
  let rest := cs.dropWhile (· ≠ '\n')
  (⟨.COMMENT, jsTrim text⟩, rest)

/-- The pop loop of `Lexer.handleIndentation`: pop stack entries greater
than the new width while more than the base entry remains; count pops. -/
def popLoop (ind : Nat) : List Nat → List Nat × Nat
  | a :: b :: t =>
      if a > ind then
        let (s, k) := popLoop ind (b :: t)
        (s, k + 1)
      else (a :: b :: t, 0)
  | s => (s, 0)

/-- Mirrors `Lexer.handleIndentation`: count leading spaces, ignore
blank/comment-only lines, then compare with the stack top.  Returns the
token to emit (if any), the input after the spaces, the new stack and
the new pending-dedent counter. -/
def handleIndentation (cs : List Char) (stack : List Nat) :
    Option Token × List Char × List Nat × Nat :=
  let ind := (cs.takeWhile (· = ' ')).length
  let rest := cs.dropWhile (· = ' ')
  match rest with
  | [] => (none, rest, stack, 0)
  | c :: _ =>
      if c = '\n' || c = '#' then (none, rest, stack, 0)
      else
        let cur := stack.headD 0
        if ind > cur then
          (some ⟨.INDENT, List.replicate ind ' '⟩, rest, ind :: stack, 0)
        else if ind < cur then
          let (stack', k) := popLoop ind stack
          if k > 0 then (some ⟨.DEDENT, []⟩, rest, stack', k - 1)
          else (none, rest, stack', 0)
        else (none, rest, stack, 0)

/-- The characters passed over before `Lexer.nextToken` dispatches on a
character: `skipInlineWhitespace` skips spaces and tabs, and the
carriage-return case consumes one `\r` and re-enters `nextToken` (with
the pending counter zero and the line-start flag off), which skips
spaces and tabs again — jointly, the maximal run of spaces, tabs and
carriage returns is passed over, and the dispatch never sees one. -/
def isInlineWS (c : Char) : Bool :=
  c = ' ' || c = '\t' || c = '\r'

/-- The body of `Lexer.nextToken` after indentation handling: skip
inline whitespace (see `isInlineWS`) and dispatch on the next
character.  Returns the token, the remaining input, the (possibly
popped, at end of input) stack, and the new line-start flag. -/
def mainScan (cs : List Char) (stack : List Nat) :
    Except Err (Token × List Char × List Nat × Bool) :=
  match cs.dropWhile isInlineWS with
  | [] =>
      if stack.length > 1 then .ok (⟨.DEDENT, []⟩, [], stack.tail, false)
      else .ok (⟨.EOF, []⟩, [], stack, false)
  | c :: t =>
      if c = '#' then
        let (tok, r) := scanComment t
        .ok (tok, r, stack, false)
      else if c = '\n' then .ok (⟨.NEWLINE, ['\n']⟩, t, stack, true)
      else if c = ':' then .ok (⟨.COLON, [':']⟩, t, stack, false)
      else if c = '|' then .ok (⟨.PIPE, ['|']⟩, t, stack, false)
      else if c = '"' then do
        let (v, r) ← scanQuotedBody t
        .ok (⟨.STRING, v⟩, r, stack, false)
      else if isDigit c || (c = '-' && (match t with | d :: _ => isDigit d | [] => false)) then
        let (tok, r) := scanNumber (c :: t)
        .ok (tok, r, stack, false)
      else if isIdentifierStart c || c = '-' || c = '/' || c = '.' then
        let (tok, r) := scanWord (c :: t)
        .ok (tok, r, stack, false)
      else .error (.unexpectedChar c)

/-- Mirrors `Lexer.nextToken`: pending dedents first, then line-start
indentation handling, then the main scan. -/
def nextToken (st : LexState) : Except Err (Token × LexState) :=
  if st.pending > 0 then
    .ok (⟨.DEDENT, []⟩, { st with pending := st.pending - 1 })
  else if st.atLineStart then
    match handleIndentation st.rest st.stack with
    | (some tok, rest', stack', pending') => .ok (tok, ⟨rest', stack', pending', false⟩)
    | (none, rest', stack', _) => do
        let (tok, r, stack'', als) ← mainScan rest' stack'
        .ok (tok, ⟨r, stack'', 0, als⟩)
  else do
    let (tok, r, stack', als) ← mainScan st.rest st.stack
    .ok (tok, ⟨r, stack', 0, als⟩)

/-- Mirrors `Lexer.tokenize`: call `nextToken` until EOF, filtering
COMMENT tokens.  Fuel-indexed; the entry point below seeds ample fuel. -/
def tokenizeF : Nat → LexState → Except Err (List Token)
  | 0, _ => .error .fuel
  | fuel + 1, st => do
      let (tok, st') ← nextToken st
      if tok.type = .COMMENT then tokenizeF fuel st'
      else if tok.type = .EOF then .ok [tok]
      else do
        let ts ← tokenizeF fuel st'
        .ok (tok :: ts)

/-- Initial lexer state for a source text. -/
def initLex (cs : List Char) : LexState :=
  ⟨cs, [0], 0, true⟩

/-- `new Lexer(source).tokenize()`.  Each `nextToken` call either
consumes input, pops the indent stack or decrements the pending counter,
so `4·|source| + 8` steps always suffice. -/
def tokenize (cs : List Char) : Except Err (List Token) :=
  tokenizeF (4 * cs.length + 8) (initLex cs)

/-- The `valueType` tag stored on literal AST nodes. -/
inductive LitType where
  | nullT | booleanT | numberT | stringT | dateT | binaryT
  deriving Repr, DecidableEq

/-- The AST node variant of `types.ts`.  `ObjectNode.properties` is the
list of its property nodes, kept as key/value pairs; a `PropertyNode`
appearing as a node in its own right (in a `Root` body) is the
`property` constructor. -/
inductive Node where
  | root (body : List Node)
  | objN (properties : List (List Char × Node))
  | arrN (elements : List Node)
  | property (key : List Char) (value : Node)
  | literal (v : Value) (vt : LitType)
  | anchorDef (name : List Char) (value : Node)
  | anchorRef (name : List Char)
  | typeHint (hint : List Char) (value : Node)
  deriving Repr

/-- Parser options with the source's defaults. -/
structure POpts where
  allowDuplicateKeys : Bool := false
  maxDepth : Nat := 100
  strict : Bool := false
  streaming : Bool := false

/-- `Parser.peek`: the synthetic EOF token past the end. -/
def peekT : List Token → Token
  | [] => ⟨.EOF, []⟩
  | t :: _ => t

/-- `Parser.check`: false past the end of the token array. -/
def checkT (ty : TokenType) : List Token → Bool
  | [] => false
  | t :: _ => t.type = ty

/-- `Parser.isAtEnd`. -/
def isAtEndP (ts : List Token) : Bool :=
  ts.isEmpty || (peekT ts).type = .EOF

/-- `Parser.skipNewlines`. -/
def skipNewlinesT (ts : List Token) : List Token :=
  ts.dropWhile (·.type = .NEWLINE)

/-- `Parser.collectLineTokens`: everything up to (not including) the
next NEWLINE / INDENT / DEDENT / EOF or the end of the array. -/
def collectLineTokens : List Token → List Token × List Token
  | [] => ([], [])
  | t :: rest =>
      if t.type = .NEWLINE || t.type = .INDENT || t.type = .DEDENT || t.type = .EOF then
        ([], t :: rest)
      else
        let (line, after) := collectLineTokens rest
        (t :: line, after)

/-- `Parser.checkAhead`: skip newlines at the current position, then
require the given token types in sequence. -/
def checkAheadT (tys : List TokenType) (ts : List Token) : Bool :=
  go tys (ts.dropWhile (·.type = .NEWLINE))
where
  go : List TokenType → List Token → Bool
    | [], _ => true
    | _ :: _, [] => false
    | ty :: tys, t :: rest => t.type = ty && go tys rest

/-- `Parser.hasInlineColon`: its pair loop followed by the `some` check
amounts to: some token is a COLON. -/
def hasInlineColon (tokens : List Token) : Bool :=
  tokens.any (·.type = .COLON)

/-- `Parser.allIdentifiers`. -/
def allIdentifiers (tokens : List Token) : Bool :=
  tokens.all (·.type = .IDENTIFIER)

/-- Decimal digit value. -/
def digitVal (c : Char) : Nat :=
  c.toNat - '0'.toNat

/-- Decimal digit character. -/
def digitChar (n : Nat) : Char :=
  Char.ofNat ('0'.toNat + n)

/-- Value of a digit string. -/
def digitsVal (ds : List Char) : Nat :=
  ds.foldl (fun a c => 10 * a + digitVal c) 0

/-- Decimal rendering of a natural number (the fuel argument only
bounds the division recursion; `n` itself is always enough). -/
def natToCharsF : Nat → Nat → List Char
  | 0, n => [digitChar (n % 10)]
  | f + 1, n =>
      if n < 10 then [digitChar n]
      else natToCharsF f (n / 10) ++ [digitChar (n % 10)]

/-- JavaScript `String(n)` for a natural number. -/
def natToChars (n : Nat) : List Char :=
  natToCharsF n n

/-- JavaScript `String(i)` for an integer. -/
def intToChars (i : Int) : List Char :=
  if i < 0 then '-' :: natToChars i.natAbs else natToChars i.toNat

/-- JavaScript `parseInt(text, 10)`: leading whitespace, optional sign,
maximal digit run.  (The no-digit NaN case cannot arise from a NUMBER
token, which always begins with a digit or a sign followed by a digit;
the embedding returns 0 there.) -/
def jsParseInt (cs : List Char) : Int :=
  match cs.dropWhile isJsSpace with
  | [] => 0
  | c :: t =>
      if c = '-' then -(digitsVal (t.takeWhile isDigit) : Int)
      else if c = '+' then (digitsVal (t.takeWhile isDigit) : Int)
      else (digitsVal ((c :: t).takeWhile isDigit) : Int)

/-- Days per month, for `jsDateValid`. -/
def daysInMonth (y m : Nat) : Nat :=
  if m = 2 then
    if y % 4 = 0 && (y % 100 ≠ 0 || y % 400 = 0) then 29 else 28
  else if m = 4 || m = 6 || m = 9 || m = 11 then 30
  else 31

/-- Validity of `new Date(text)` for the ISO-shaped texts that become
DATE tokens (the only texts this code passes to the Date constructor):
field-range checking per the ISO-8601 calendar/clock.  No claim below
exercises date literals; this models the host Date platform behavior on
the token shapes `isISODate` admits. -/
def jsDateValid : List Char → Bool
  | y1 :: y2 :: y3 :: y4 :: '-' :: m1 :: m2 :: '-' :: d1 :: d2 :: rest =>
      let y := digitsVal [y1, y2, y3, y4]
      let m := digitsVal [m1, m2]
      let d := digitsVal [d1, d2]
      1 ≤ m && m ≤ 12 && 1 ≤ d && d ≤ daysInMonth y m &&
        (match rest with
         | [] => true
         | 'T' :: h1 :: h2 :: ':' :: n1 :: n2 :: rest2 =>
             digitsVal [h1, h2] ≤ 23 && digitsVal [n1, n2] ≤ 59 &&
               (match rest2 with
                | ':' :: s1 :: s2 :: _ => digitsVal [s1, s2] ≤ 59
                | _ => true)
         | _ => false)
  | _ => false

/-- `Parser.tokenToLiteral`. -/
def tokenToLiteral (token : Token) : Except Err Node :=
  match token.type with
  | .NULL => .ok (.literal .vnull .nullT)
  | .BOOLEAN => .ok (.literal (.vbool (token.value = "true".toList)) .booleanT)
  | .NUMBER =>
      if token.value.contains '.' || token.value.contains 'e' || token.value.contains 'E' then
        .ok (.literal (.vnum (.float token.value)) .numberT)
      else .ok (.literal (.vnum (.int (jsParseInt token.value))) .numberT)
  | .DATE =>
      if jsDateValid token.value then .ok (.literal (.vdate token.value) .dateT)
      else .error (.invalidDate token.value)
  | _ => .ok (.literal (.vstr token.value) .stringT)

/-- The pair-scanning loop of `Parser.parseInlineObject`.  A lone final
token ends the loop with no further pair whether or not it is an
identifier (`i+1 < length` fails, or `i` is advanced past the end). -/
def inlinePairs : List Token → Except Err (List (List Char × Node))
  | [] => .ok []
  | [_] => .ok []
  | k :: c :: rest2 =>
      if k.type ≠ .IDENTIFIER then inlinePairs (c :: rest2)
      else if c.type = .COLON then
        match rest2 with
        | v :: rest3 => do
            let lit ← tokenToLiteral v
            let ps ← inlinePairs rest3
            .ok ((k.value, lit) :: ps)
        | [] => .ok []
      else inlinePairs (c :: rest2)

/-- `Parser.parseInlineObject`. -/
def parseInlineObject (tokens : List Token) : Except Err Node := do
  .ok (.objN (← inlinePairs tokens))

/-- The zip loop of `Parser.createTableRow` (`i` bounded by both the
header count and the row token count). -/
def tableRowPairs : List (List Char) → List Token → Except Err (List (List Char × Node))
  | [], _ => .ok []
  | _, [] => .ok []
  | h :: hs, v :: vs => do
      let lit ← tokenToLiteral v
      let ps ← tableRowPairs hs vs
      .ok ((h, lit) :: ps)

/-- `Parser.createTableRow`. -/
def createTableRow (headers : List (List Char)) (vals : List Token) : Except Err Node := do
  .ok (.objN (← tableRowPairs headers vals))

/-- `Parser.parseLineValues`. -/
def parseLineValues (tokens : List Token) : Except Err Node :=
  match tokens with
  | [] => .ok (.literal .vnull .nullT)
  | [t] => tokenToLiteral t
  | ts => do
      let els ← ts.mapM tokenToLiteral
      .ok (.arrN els)

/-- `Parser.parseLiteral`: convert the current token (the synthetic EOF
token past the end, whose default conversion is the empty string). -/
def parseLiteralP (ts : List Token) : Except Err (Node × List Token) := do
  .ok (← tokenToLiteral (peekT ts), ts.tail)

mutual

/-- `Parser.parseTopLevel`. -/
def parseTopLevelP : Nat → POpts → Nat → List Token → Except Err (Option Node × List Token)
  | 0, _, _, _ => .error .fuel
  | fuel + 1, opts, depth, ts =>
      let ts := skipNewlinesT ts
      if isAtEndP ts then .ok (none, ts)
      else if checkT .PIPE ts then do
        let (n, ts') ← parseStreamingChunkP fuel opts depth ts
        .ok (some n, ts')
      else if checkT .IDENTIFIER ts then do
        let ((k, v), ts') ← parseKeyValueP fuel opts depth ts
        .ok (some (.property k v), ts')
      else do
        let (n, ts') ← parseLiteralP ts
        .ok (some n, ts')

/-- `Parser.parseKeyValue`, returning the property as its key/value
pair together with the remaining tokens. -/
def parseKeyValueP : Nat → POpts → Nat → List Token → Except Err ((List Char × Node) × List Token)
  | 0, _, _, _ => .error .fuel
  | fuel + 1, opts, depth, ts =>
      let key := (peekT ts).value
      let (lineTokens, ts2) := collectLineTokens ts.tail
      if lineTokens.isEmpty && checkT .INDENT ts2 then do
        let (v, ts3) ← parseIndentedBlockP fuel opts depth ts2.tail
        .ok ((key, v), ts3)
      else if !lineTokens.isEmpty then
        if checkAheadT [.NEWLINE, .INDENT] ts2 then
          if hasInlineColon lineTokens then do
            let firstRow ← parseInlineObject lineTokens
            let ts3 := skipNewlinesT ts2
            if checkT .INDENT ts3 then do
              let (rows, ts4) ← parseArrayOfInlineObjectsP fuel opts depth firstRow ts3.tail
              .ok ((key, rows), ts4)
            else .ok ((key, firstRow), ts3)
          else if allIdentifiers lineTokens then
            let ts3 := skipNewlinesT ts2
            if checkT .INDENT ts3 then do
              let (table, ts4) ← parseTableP fuel opts depth (lineTokens.map (·.value)) [] ts3.tail
              .ok ((key, table), ts4)
            else do
              let v ← parseLineValues lineTokens
              .ok ((key, v), ts3)
          else do
            let v ← parseLineValues lineTokens
            .ok ((key, v), ts2)
        else do
          let v ← parseLineValues lineTokens
          .ok ((key, v), ts2)
      else .ok ((key, .literal .vnull .nullT), ts2)

/-- `Parser.parseIndentedBlock`: depth increment and check, the
property loop, then consuming the closing DEDENT if present. -/
def parseIndentedBlockP : Nat → POpts → Nat → List Token → Except Err (Node × List Token)
  | 0, _, _, _ => .error .fuel
  | fuel + 1, opts, depth, ts =>
      if depth + 1 ≥ opts.maxDepth then .error .maxDepth
      else do
        let (props, ts') ← blockLoopP fuel opts (depth + 1) [] [] ts
        let ts'' := if checkT .DEDENT ts' then ts'.tail else ts'
        .ok (.objN props, ts'')

/-- The `while` loop of `Parser.parseIndentedBlock`, carrying the
seen-key set and the accumulated properties (in reverse). -/
def blockLoopP : Nat → POpts → Nat → List (List Char) → List (List Char × Node) → List Token →
    Except Err (List (List Char × Node) × List Token)
  | 0, _, _, _, _, _ => .error .fuel
  | fuel + 1, opts, depth, seen, acc, ts =>
      if checkT .DEDENT ts || isAtEndP ts then .ok (acc.reverse, ts)
      else
        let ts1 := skipNewlinesT ts
        if checkT .DEDENT ts1 || isAtEndP ts1 then .ok (acc.reverse, ts1)
        else if checkT .IDENTIFIER ts1 then do
          let ((k, v), ts2) ← parseKeyValueP fuel opts depth ts1
          if !opts.allowDuplicateKeys && seen.contains k then .error (.dupKey k)
          else blockLoopP fuel opts depth (k :: seen) ((k, v) :: acc) (skipNewlinesT ts2)
        else blockLoopP fuel opts depth seen acc (skipNewlinesT ts1.tail)

/-- The row loop of `Parser.parseArrayOfInlineObjects`, with the
elements accumulated in reverse (the first row is supplied by the
caller). -/
def parseArrayOfInlineObjectsP : Nat → POpts → Nat → Node → List Token →
    Except Err (Node × List Token)
  | 0, _, _, _, _ => .error .fuel
  | fuel + 1, opts, depth, firstRow, ts => do
      let (elems, ts') ← inlineRowsLoopP fuel opts depth [] ts
      let ts'' := if checkT .DEDENT ts' then ts'.tail else ts'
      .ok (.arrN (firstRow :: elems.reverse), ts'')

/-- Iterations of the `parseArrayOfInlineObjects` loop. -/
def inlineRowsLoopP : Nat → POpts → Nat → List Node → List Token →
    Except Err (List Node × List Token)
  | 0, _, _, _, _ => .error .fuel
  | fuel + 1, opts, depth, acc, ts =>
      if checkT .DEDENT ts || isAtEndP ts then .ok (acc, ts)
      else
        let ts1 := skipNewlinesT ts
        if checkT .DEDENT ts1 || isAtEndP ts1 then .ok (acc, ts1)
        else
          let (lineTokens, ts2) := collectLineTokens ts1
          if !lineTokens.isEmpty && hasInlineColon lineTokens then do
            let row ← parseInlineObject lineTokens
            inlineRowsLoopP fuel opts depth (row :: acc) (skipNewlinesT ts2)
          else inlineRowsLoopP fuel opts depth acc (skipNewlinesT ts2)

/-- `Parser.parseTable`: the row loop (rows accumulated in reverse),
then consuming the closing DEDENT if present. -/
def parseTableP : Nat → POpts → Nat → List (List Char) → List Node → List Token →
    Except Err (Node × List Token)
  | 0, _, _, _, _, _ => .error .fuel
  | fuel + 1, opts, depth, headers, acc, ts =>
      if checkT .DEDENT ts || isAtEndP ts then
        let ts' := if checkT .DEDENT ts then ts.tail else ts
        .ok (.arrN acc.reverse, ts')
      else
        let ts1 := skipNewlinesT ts
        if checkT .DEDENT ts1 || isAtEndP ts1 then
          let ts' := if checkT .DEDENT ts1 then ts1.tail else ts1
          .ok (.arrN acc.reverse, ts')
        else
          let (rowTokens, ts2) := collectLineTokens ts1
          if !rowTokens.isEmpty then do
            let row ← createTableRow headers rowTokens
            parseTableP fuel opts depth headers (row :: acc) (skipNewlinesT ts2)
          else parseTableP fuel opts depth headers acc (skipNewlinesT ts2)

/-- `Parser.parseStreamingChunk`: consume `|`, an optional identifier,
an optional closing `|`; then an indented block or another top-level
unit. -/
def parseStreamingChunkP : Nat → POpts → Nat → List Token → Except Err (Node × List Token)
  | 0, _, _, _ => .error .fuel
  | fuel + 1, opts, depth, ts =>
      let ts1 := ts.tail
      let ts2 := if checkT .IDENTIFIER ts1 then ts1.tail else ts1
      let ts3 := if checkT .PIPE ts2 then ts2.tail else ts2
      let ts4 := skipNewlinesT ts3
      if checkT .INDENT ts4 then parseIndentedBlockP fuel opts depth ts4.tail
      else do
        let (n, ts5) ← parseTopLevelP fuel opts depth ts4
        .ok (n.getD (.literal .vnull .nullT), ts5)

/-- The top-level loop of `Parser.parse`. -/
def parseBodyP : Nat → POpts → List Token → Except Err (List Node × List Token)
  | 0, _, _ => .error .fuel
  | fuel + 1, opts, ts =>
      if isAtEndP ts then .ok ([], ts)
      else do
        let (n, ts') ← parseTopLevelP fuel opts 0 ts
        let (rest, ts'') ← parseBodyP fuel opts (skipNewlinesT ts')
        .ok ((match n with | some m => [m] | none => []) ++ rest, ts'')

end

/-- `Parser.parse` with generous fuel (every loop iteration and every
nesting step consumes tokens; the one exception, the INDENT-spin of the
row loops, surfaces as the distinguished fuel error). -/
def parseP (opts : POpts) (ts : List Token) : Except Err Node := do
  let (body, _) ← parseBodyP (4 * ts.length + 16) opts (skipNewlinesT ts)
  .ok (.root body)

/-- The anchor table of one `Evaluator` instance. -/
abbrev Anchors := List (List Char × Value)

/-- `Evaluator.deepClone` returns a value-equal copy so that later
mutation cannot alias the stored anchor value; in the pure value model
a deep copy is the identity. -/
def deepClone (v : Value) : Value :=
  v

mutual

/-- `Evaluator.evaluate`: dispatch on the node kind.  The source's
`switch` handles ROOT / OBJECT / ARRAY / LITERAL / ANCHOR_DEF /
ANCHOR_REF and throws `Unknown AST node type` for everything else —
including PROPERTY, which the parser does produce as a Root child. -/
def evalP : Nat → Anchors → Node → Except Err (Value × Anchors)
  | 0, _, _ => .error .fuel
  | fuel + 1, anchors, node =>
      match node with
      | .root body =>
          match body with
          | [] => .ok (.vnull, anchors)
          | [c] => evalP fuel anchors c
          | _ => rootFoldP fuel anchors [] 0 body
      | .objN props => do
          let (fields, a') ← objFoldP fuel anchors [] props
          .ok (.vobj fields, a')
      | .arrN els => do
          let (vs, a') ← arrFoldP fuel anchors [] els
          .ok (.varr vs, a')
      | .literal v _ => .ok (v, anchors)
      | .anchorDef n v => do
          let (val, a') ← evalP fuel anchors v
          .ok (val, objSet a' n val)
      | .anchorRef n =>
          match List.lookup n anchors with
          | some v => .ok (deepClone v, anchors)
          | none => .error (.undefinedAnchor n)
      | .property _ _ => .error .unknownNode
      | .typeHint _ _ => .error .unknownNode

/-- The multi-child loop of `Evaluator.evaluateRoot`: Property children
keyed by their key, AnchorDef children keyed by their name (note the
source evaluates `anchor.value` directly here, so the anchor is *not*
registered on this path), anything else keyed by
`String(node.body.indexOf(child))`.  `indexOf` compares by object
identity (`===`) and the parser creates a fresh node object per child,
so at runtime the index is always the child's own position, which this
fold tracks directly in `idx`. -/
def rootFoldP : Nat → Anchors → List (List Char × Value) → Nat → List Node →
    Except Err (Value × Anchors)
  | 0, _, _, _, _ => .error .fuel
  | fuel + 1, anchors, acc, idx, rest =>
      match rest with
      | [] => .ok (.vobj acc, anchors)
      | child :: rest' =>
          match child with
          | .property k v => do
              let (val, a') ← evalP fuel anchors v
              rootFoldP fuel a' (objSet acc k val) (idx + 1) rest'
          | .anchorDef n v => do
              let (val, a') ← evalP fuel anchors v
              rootFoldP fuel a' (objSet acc n val) (idx + 1) rest'
          | _ => do
              let (val, a') ← evalP fuel anchors child
              rootFoldP fuel a' (objSet acc (natToChars idx) val) (idx + 1) rest'

/-- `Evaluator.evaluateObject`'s loop. -/
def objFoldP : Nat → Anchors → List (List Char × Value) → List (List Char × Node) →
    Except Err (List (List Char × Value) × Anchors)
  | 0, _, _, _ => .error .fuel
  | fuel + 1, anchors, acc, props =>
      match props with
      | [] => .ok (acc, anchors)
      | (k, v) :: rest => do
          let (val, a') ← evalP fuel anchors v
          objFoldP fuel a' (objSet acc k val) rest

/-- `Evaluator.evaluateArray`'s elementwise map. -/
def arrFoldP : Nat → Anchors → List Value → List Node →
    Except Err (List Value × Anchors)
  | 0, _, _, _ => .error .fuel
  | fuel + 1, anchors, acc, els =>
      match els with
      | [] => .ok (acc.reverse, anchors)
      | e :: rest => do
          let (val, a') ← evalP fuel anchors e
          arrFoldP fuel a' (val :: acc) rest

end

/-- The decode pipeline of `index.ts`'s `parse`: tokenize, parse,
evaluate with a fresh evaluator.  Fuel seeds are generous: the lexer
needs at most a few steps per character and the parser/evaluator at
most a few per token. -/
def parseFull (opts : POpts) (cs : List Char) : Except Err Value := do
  let ts ← tokenize cs
  let ast ← parseP opts ts
  let (v, _) ← evalP (4 * ts.length + 16) [] ast
  .ok v

/-- `parse(source)` on a string literal with default options. -/
def parseS (s : String) : Except Err Value :=
  parseFull {} s.toList

/-- Serializer options with the source's defaults. -/
structure SOpts where
  indent : Nat := 2
  sortKeys : Bool := false
  compact : Bool := false
  explicitTypes : Bool := false

/-- The serializer's indent unit, `' '.repeat(options.indent)`. -/
def indentStr (opts : SOpts) : List Char :=
  List.replicate opts.indent ' '

/-- `Serializer.getIndent`: the indent unit repeated `level` times. -/
def getIndent (opts : SOpts) (lvl : Nat) : List Char :=
  (List.replicate lvl (indentStr opts)).flatten

/-- The numeric-literal shape regular expression
`^-?\d+\.?\d*([eE][+-]?\d+)?$` of `Serializer.needsQuoting`, matched
deterministically (greedy digit runs; the optional groups can only
succeed one way). -/
def numericShape (cs : List Char) : Bool :=
  let cs1 := match cs with | '-' :: t => t | t => t
  let ds := cs1.takeWhile isDigit
  if ds.isEmpty then false
  else
    let cs2 := cs1.dropWhile isDigit
    let cs3 := match cs2 with | '.' :: t => t | t => t
    let cs4 := cs3.dropWhile isDigit
    match cs4 with
    | [] => true
    | e :: t =>
        if e = 'e' || e = 'E' then
          let t2 := match t with
            | s :: t' => if s = '+' || s = '-' then t' else t
            | [] => t
          !(t2.takeWhile isDigit).isEmpty && (t2.dropWhile isDigit).isEmpty
        else false

/-- `Serializer.needsQuoting`. -/
def needsQuoting (str : List Char) : Bool :=
  if str.length = 0 then true
  else if str.any (fun c => c = '\n' || c = '\t' || c = '\r') then true
  else if str.contains ':' then true
  else if (match str with | c :: _ => c = ' ' | [] => false) ||
      (match str.getLast? with | some c => c = ' ' | none => false) then true
  else if str = "true".toList || str = "false".toList || str = "null".toList then true
  else if numericShape str then true
  else false

/-- One character of `Serializer.quoteString`'s escape switch. -/
def escChar (c : Char) : List Char :=
  if c = '"' then ['\\', '"']
  else if c = '\\' then ['\\', '\\']
  else if c = '\n' then ['\\', 'n']
  else if c = '\t' then ['\\', 't']
  else if c = '\r' then ['\\', 'r']
  else [c]

/-- The escaped body built by `Serializer.quoteString`'s loop. -/
def escapeChars : List Char → List Char
  | [] => []
  | c :: t => escChar c ++ escapeChars t

/-- `Serializer.quoteString`. -/
def quoteString (str : List Char) : List Char :=
  '"' :: escapeChars str ++ ['"']

/-- `Serializer.serializeString`. -/
def serializeString (str : List Char) : List Char :=
  if needsQuoting str then quoteString str else str

/-- The base64 alphabet of `btoa`. -/
def base64Chars : List Char :=
  "ABCDEFGHIJKLMNOPQRSTUVWXYZabcdefghijklmnopqrstuvwxyz0123456789+/".toList

/-- One base64 digit. -/
def b64char (n : Nat) : Char :=
  base64Chars.getD n 'A'

/-- `btoa` on a byte sequence. -/
def base64Enc : List Nat → List Char
  | [] => []
  | [a] => [b64char (a / 4), b64char (a % 4 * 16), '=', '=']
  | [a, b] => [b64char (a / 4), b64char (a % 4 * 16 + b / 16), b64char (b % 16 * 4), '=']
  | a :: b :: c :: t =>
      [b64char (a / 4), b64char (a % 4 * 16 + b / 16), b64char (b % 16 * 4 + c / 64),
        b64char (c % 64)] ++ base64Enc t

/-- `Serializer.serializeBinary`: quoted base64 text. -/
def serializeBinary (bytes : List Nat) : List Char :=
  '"' :: base64Enc bytes ++ ['"']

/-- `Serializer.serializeDate`: invalid dates are a hard encode error;
valid ones render as ISO text.  The embedding keeps the date's stored
literal as that text (`toISOString` canonicalization is not modelled;
no claim serializes a date value). -/
def serializeDate (lit : List Char) : Except Err (List Char) :=
  if jsDateValid lit then .ok lit else .error (.invalidDate lit)

/-- JavaScript `String(n)` for the modelled numbers.  Integers render
in decimal; a float value is kept as its originating literal (no claim
serializes a float). -/
def numToChars : JsNumber → List Char
  | .int n => intToChars n
  | .float lit => lit

/-- `isFinite(value)` for the modelled numbers.  Integers are finite;
a float literal's overflow to Infinity (possible only for astronomical
exponents) is not modelled — no claim serializes a float. -/
def jsIsFinite : JsNumber → Bool
  | .int _ => true
  | .float _ => true

/-- The `allSimplePrimitives` element test of `Serializer.serializeArray`
(also reused by `serializeKeyValue`): null, boolean, number, or a
string needing no quoting. -/
def isSimplePrim : Value → Bool
  | .vnull => true
  | .vbool _ => true
  | .vnum _ => true
  | .vstr s => !needsQuoting s
  | _ => false

/-- `Serializer.hasComplexElements`: a plain object or array element
(dates and byte arrays do not count). -/
def isComplexElem : Value → Bool
  | .varr _ => true
  | .vobj _ => true
  | _ => false

/-- A plain object (not null / array / Date / Uint8Array). -/
def asPlainObj : Value → Option (List (List Char × Value))
  | .vobj fields => some fields
  | _ => none

/-- A value allowed in a table cell by `checkTableCandidate`: anything
but a plain object or array. -/
def isTableScalar (v : Value) : Bool :=
  !isComplexElem v

/-- `obj[key]` for a known-present key (the `.getD` default is
unreachable at every use site, which is guarded by a key-set check). -/
def getField (fields : List (List Char × Value)) (k : List Char) : Value :=
  (List.lookup k fields).getD .vnull

/-- The value test of `Serializer.isArrayOfSimpleObjects`: primitives
and dates (any string, quoted or not). -/
def isInlineSimpleVal : Value → Bool
  | .vnull => true
  | .vbool _ => true
  | .vnum _ => true
  | .vstr _ => true
  | .vdate _ => true
  | _ => false

/-- `Serializer.isArrayOfSimpleObjects`. -/
def isArrayOfSimpleObjects (arr : List Value) : Bool :=
  arr.all fun item =>
    match asPlainObj item with
    | some fields => fields.all fun (_, v) => isInlineSimpleVal v
    | none => false

/-- `Serializer.isSimpleObject` (for compact mode): at most four keys,
all values primitive with unquoted strings. -/
def isSimpleObject (fields : List (List Char × Value)) : Bool :=
  fields.length ≤ 4 && fields.all fun (_, v) => isSimplePrim v

/-- Result of `Serializer.checkTableCandidate`. -/
structure TableCand where
  isTable : Bool
  columns : List (List Char)
  rows : List (List (List Char × Value))

/-- `Serializer.checkTableCandidate`: all elements plain objects, the
first object's keys as columns, every object with the same key count
and every column present with a non-complex value. -/
def checkTableCandidate (arr : List Value) : TableCand :=
  match arr.mapM asPlainObj with
  | none => ⟨false, [], []⟩
  | some objects =>
      match objects with
      | [] => ⟨false, [], []⟩
      | first :: _ =>
          let columns := first.map Prod.fst
          if columns.isEmpty then ⟨false, [], []⟩
          else if objects.all fun obj =>
              obj.length = columns.length &&
                columns.all fun k =>
                  (List.lookup k obj).isSome && isTableScalar (getField obj k) then
            ⟨true, columns, objects⟩
          else ⟨false, [], []⟩

/-- JavaScript `padEnd`: pad with spaces up to the width. -/
def padEnd (s : List Char) (w : Nat) : List Char :=
  s ++ List.replicate (w - s.length) ' '

/-- Lexicographic UTF-16 comparison, the default JS `sort` order for
the key strings appearing here. -/
def lexLe : List Char → List Char → Bool
  | [], _ => true
  | _ :: _, [] => false
  | a :: as, b :: bs =>
      if a.toNat < b.toNat then true
      else if b.toNat < a.toNat then false
      else lexLe as bs

/-- Insertion sort by `lexLe`, modelling `Object.keys(obj).sort()`. -/
def sortLex (l : List (List Char)) : List (List Char) :=
  match l with
  | [] => []
  | x :: xs => insertLex x (sortLex xs)
where
  insertLex (x : List Char) : List (List Char) → List (List Char)
    | [] => [x]
    | y :: ys => if lexLe x y then x :: y :: ys else y :: insertLex x ys

/-- `Object.keys`, sorted when the option asks for it. -/
def objKeys (opts : SOpts) (fields : List (List Char × Value)) : List (List Char) :=
  if opts.sortKeys then sortLex (fields.map Prod.fst) else fields.map Prod.fst

/-- `list.join(sep)` for a general separator. -/
def joinList (sep : List Char) : List (List Char) → List Char
  | [] => []
  | [x] => x
  | x :: xs => x ++ sep ++ joinList sep xs

/-- `list.join(sep)` for a one-character separator. -/
def joinSep (sep : Char) (parts : List (List Char)) : List Char :=
  joinList [sep] parts

mutual

/-- `Serializer.serializeValue` (fuel-indexed like every loop of the
embedding; `serialize` below seeds ample fuel). -/
def serializeValueF : Nat → SOpts → Nat → Bool → Value → Except Err (List Char)
  | 0, _, _, _, _ => .error .fuel
  | fuel + 1, opts, lvl, isTop, v =>
      match v with
      | .vnull => .ok "null".toList
      | .vbool b => .ok (if b then "true".toList else "false".toList)
      | .vnum n =>
          if jsIsFinite n then .ok (numToChars n) else .error .unknownNode
      | .vstr s => .ok (serializeString s)
      | .vdate lit => serializeDate lit
      | .vbin bytes => .ok (serializeBinary bytes)
      | .varr elems => serializeArrayF fuel opts lvl elems
      | .vobj fields => serializeObjectF fuel opts lvl isTop fields
termination_by structural fuel _ _ _ _ => fuel

/-- `Serializer.serializeArray`. -/
def serializeArrayF : Nat → SOpts → Nat → List Value → Except Err (List Char)
  | 0, _, _, _ => .error .fuel
  | fuel + 1, opts, lvl, arr =>
      if arr.isEmpty then .ok []
      else if arr.all isSimplePrim && !arr.any isComplexElem then do
        let parts ← serializeListF fuel opts lvl arr
        .ok (joinSep ' ' parts)
      else
        let cand := checkTableCandidate arr
        if cand.isTable then serializeTableF fuel opts lvl cand
        else if isArrayOfSimpleObjects arr then
          serializeArrayOfInlineObjectsF fuel opts lvl
            (arr.filterMap asPlainObj)
        else do
          let lines ← complexLinesF fuel opts lvl arr
          .ok (joinList (('\n' :: getIndent opts lvl)) lines)
termination_by structural fuel _ _ _ => fuel

/-- Elementwise `serializeValue` over a list (non-top-level). -/
def serializeListF : Nat → SOpts → Nat → List Value → Except Err (List (List Char))
  | 0, _, _, _ => .error .fuel
  | fuel + 1, opts, lvl, vs =>
      match vs with
      | [] => .ok []
      | v :: rest => do
          let s ← serializeValueF fuel opts lvl false v
          let ss ← serializeListF fuel opts lvl rest
          .ok (s :: ss)
termination_by structural fuel _ _ _ => fuel

/-- The per-element rendering of `serializeArray`'s complex case:
inline-object syntax for plain objects, ordinary rendering otherwise. -/
def complexLinesF : Nat → SOpts → Nat → List Value → Except Err (List (List Char))
  | 0, _, _, _ => .error .fuel
  | fuel + 1, opts, lvl, vs =>
      match vs with
      | [] => .ok []
      | v :: rest => do
          let line ←
            match asPlainObj v with
            | some fields => serializeInlineObjectF fuel opts lvl fields
            | none => serializeValueF fuel opts lvl false v
          let lines ← complexLinesF fuel opts lvl rest
          .ok (line :: lines)
termination_by structural fuel _ _ _ => fuel

/-- `Serializer.serializeTable`: compute the rendered cells, pad each
column to the maximum of header and cell widths, emit the header line
and one indented row per record.  (The source renders each cell twice,
once for widths and once for output; rendering is pure, so the
embedding renders once.) -/
def serializeTableF : Nat → SOpts → Nat → TableCand → Except Err (List Char)
  | 0, _, _, _ => .error .fuel
  | fuel + 1, opts, lvl, cand => do
      let cells ← tableCellsF fuel opts lvl cand.columns cand.rows
      let widths := cand.columns.zipWith
        (fun col i => (cells.map fun row => (row.getD i []).length).foldl max col.length)
        (List.range cand.columns.length)
      let header := joinSep ' ' (cand.columns.zipWith padEnd widths)
      let indent := getIndent opts lvl ++ indentStr opts
      let dataRows := cells.map fun row =>
        joinSep ' ' (row.zipWith padEnd widths)
      .ok (header ++ ['\n'] ++ joinList ['\n'] (dataRows.map (indent ++ ·)))
termination_by structural fuel _ _ _ => fuel

/-- The rendered cell texts of a table, row-major. -/
def tableCellsF : Nat → SOpts → Nat → List (List Char) → List (List (List Char × Value)) →
    Except Err (List (List (List Char)))
  | 0, _, _, _, _ => .error .fuel
  | fuel + 1, opts, lvl, columns, rows =>
      match rows with
      | [] => .ok []
      | row :: rest => do
          let cells ← serializeListF fuel opts lvl (columns.map (getField row))
          let others ← tableCellsF fuel opts lvl columns rest
          .ok (cells :: others)
termination_by structural fuel _ _ _ _ => fuel

/-- `Serializer.serializeArrayOfInlineObjects`. -/
def serializeArrayOfInlineObjectsF : Nat → SOpts → Nat → List (List (List Char × Value)) →
    Except Err (List Char)
  | 0, _, _, _ => .error .fuel
  | fuel + 1, opts, lvl, objs => do
      let lines ← inlineLinesF fuel opts lvl objs
      let indent := getIndent opts lvl ++ indentStr opts
      .ok ('\n' :: joinList ['\n'] (lines.map (indent ++ ·)))
termination_by structural fuel _ _ _ => fuel

/-- The per-object lines of `serializeArrayOfInlineObjects`. -/
def inlineLinesF : Nat → SOpts → Nat → List (List (List Char × Value)) →
    Except Err (List (List Char))
  | 0, _, _, _ => .error .fuel
  | fuel + 1, opts, lvl, objs =>
      match objs with
      | [] => .ok []
      | o :: rest => do
          let line ← serializeInlineObjectF fuel opts lvl o
          let lines ← inlineLinesF fuel opts lvl rest
          .ok (line :: lines)
termination_by structural fuel _ _ _ => fuel

/-- `Serializer.serializeInlineObject`: `key:value` pairs joined by
spaces. -/
def serializeInlineObjectF : Nat → SOpts → Nat → List (List Char × Value) →
    Except Err (List Char)
  | 0, _, _, _ => .error .fuel
  | fuel + 1, opts, lvl, fields => do
      let vals ← serializeListF fuel opts lvl ((objKeys opts fields).map (getField fields))
      let pairs := (objKeys opts fields).zipWith (fun k v => k ++ ':' :: v) vals
      .ok (joinSep ' ' pairs)
termination_by structural fuel _ _ _ => fuel

/-- `Serializer.serializeObject`. -/
def serializeObjectF : Nat → SOpts → Nat → Bool → List (List Char × Value) →
    Except Err (List Char)
  | 0, _, _, _, _ => .error .fuel
  | fuel + 1, opts, lvl, isTop, fields =>
      if (objKeys opts fields).isEmpty then .ok []
      else if opts.compact && isSimpleObject fields then
        serializeInlineObjectF fuel opts lvl fields
      else do
        let lines ← kvLinesF fuel opts lvl fields (objKeys opts fields)
        if isTop then .ok (joinList ['\n'] lines)
        else
          let indent := getIndent opts lvl
          .ok ('\n' :: joinList ['\n'] (lines.map ((indent ++ indentStr opts) ++ ·)))
termination_by structural fuel _ _ _ _ => fuel

/-- The per-key lines of `serializeObject`'s normal mode. -/
def kvLinesF : Nat → SOpts → Nat → List (List Char × Value) → List (List Char) →
    Except Err (List (List Char))
  | 0, _, _, _, _ => .error .fuel
  | fuel + 1, opts, lvl, fields, keys =>
      match keys with
      | [] => .ok []
      | k :: rest => do
          let line ← serializeKeyValueF fuel opts lvl k (getField fields k)
          let lines ← kvLinesF fuel opts lvl fields rest
          .ok (line :: lines)
termination_by structural fuel _ _ _ _ => fuel

/-- `Serializer.serializeKeyValue`. -/
def serializeKeyValueF : Nat → SOpts → Nat → List Char → Value → Except Err (List Char)
  | 0, _, _, _, _ => .error .fuel
  | fuel + 1, opts, lvl, key, v =>
      match v with
      | .vnull => .ok (key ++ ' ' :: "null".toList)
      | .vbool b => .ok (key ++ ' ' :: (if b then "true".toList else "false".toList))
      | .vnum n => .ok (key ++ ' ' :: numToChars n)
      | .vstr s => .ok (key ++ ' ' :: serializeString s)
      | .vdate lit => do
          let d ← serializeDate lit
          .ok (key ++ ' ' :: d)
      | .vbin bytes => .ok (key ++ ' ' :: serializeBinary bytes)
      | .varr arr =>
          let cand := checkTableCandidate arr
          if cand.isTable && !cand.rows.isEmpty then do
            let tableStr ← serializeTableF fuel opts (lvl + 1) cand
            .ok (key ++ ' ' :: tableStr)
          else if arr.all isSimplePrim && !arr.isEmpty then do
            let parts ← serializeListF fuel opts lvl arr
            .ok (key ++ ' ' :: joinSep ' ' parts)
          else if isArrayOfSimpleObjects arr then do
            let arrayStr ← serializeArrayOfInlineObjectsF fuel opts (lvl + 1)
              (arr.filterMap asPlainObj)
            .ok (key ++ arrayStr)
          else if arr.isEmpty then .ok key
          else do
            let parts ← serializeListF fuel opts lvl arr
            .ok (key ++ ' ' :: joinSep ' ' parts)
      | .vobj fields => do
          let objStr ← serializeObjectF fuel opts (lvl + 1) false fields
          .ok (key ++ objStr)
termination_by structural fuel _ _ _ _ => fuel

end

/-- `stringify(value, options)` (`Serializer.serialize`): top-level
rendering.  The constant fuel is ample for every value a theorem below
mentions (fuel exhaustion is the distinguished error in any case). -/
def stringify (opts : SOpts) (v : Value) : Except Err (List Char) :=
  serializeValueF 1000 opts 0 true v

mutual

/-- The spec's decoded value equality: Record key order insignificant,
Array order significant (fuel-indexed; any fuel at least the value
depth suffices, and every use below is concrete). -/
def veqF : Nat → Value → Value → Bool
  | 0, _, _ => false
  | fuel + 1, a, b =>
      match a, b with
      | .vnull, .vnull => true
      | .vbool x, .vbool y => x = y
      | .vnum x, .vnum y => x = y
      | .vstr x, .vstr y => x = y
      | .vdate x, .vdate y => x = y
      | .vbin x, .vbin y => x = y
      | .varr xs, .varr ys => veqListF fuel xs ys
      | .vobj xs, .vobj ys => veqFieldsF fuel xs ys
      | _, _ => false
termination_by structural fuel _ _ => fuel

/-- Elementwise comparison of arrays (order significant). -/
def veqListF : Nat → List Value → List Value → Bool
  | 0, _, _ => false
  | fuel + 1, [], [] => true
  | fuel + 1, x :: xs, y :: ys => veqF fuel x y && veqListF fuel xs ys
  | _ + 1, _, _ => false
termination_by structural fuel _ _ => fuel

/-- Key-set equality plus per-key value comparison (order
insignificant). -/
def veqFieldsF : Nat → List (List Char × Value) → List (List Char × Value) → Bool
  | 0, _, _ => false
  | fuel + 1, xs, ys =>
      (ys.all fun (k, _) => (List.lookup k xs).isSome) &&
        xs.all fun (k, v) =>
          match List.lookup k ys with
          | some w => veqF fuel v w
          | none => false
termination_by structural fuel _ _ => fuel

end

/-- The character class `[^|]` of the chunk pattern. -/
def notPipe (c : Char) : Bool :=
  c ≠ '|'

/-- The first match of the `StreamParser.processBuffer` chunk pattern
`/\|([^|]*)\|([^|]+?)(?=\||$)/` in the buffer: a `|`, the id (which can
contain no `|`), a second `|`, then a nonempty content run extending to
the next `|` or the end of the buffer.  When the content run would be
empty the engine fails at this start and resumes searching at the next
`|`.  Returns id, content and the rest of the buffer after the match.
(Fuel-indexed; every recursive call drops at least one character, so
`|buffer| + 1` always suffices.) -/
def firstSpanF : Nat → List Char → Option (List Char × List Char × List Char)
  | 0, _ => none
  | fuel + 1, cs =>
      match cs with
      | [] => none
      | c :: t =>
          if c = '|' then
            let idPart := t.takeWhile notPipe
            match t.dropWhile notPipe with
            | p :: t2 =>
                if p = '|' then
                  let content := t2.takeWhile notPipe
                  if content.isEmpty then firstSpanF fuel ('|' :: t2)
                  else some (idPart, content, t2.dropWhile notPipe)
                else none
            | [] => none
          else firstSpanF fuel t

/-- All matches of the chunk pattern, in scan order, together with the
buffer left after the last match (the whole buffer when there is no
match), as `processBuffer`'s `exec` loop and final `slice` compute. -/
def findSpansF : Nat → List Char → List (List Char × List Char) × List Char
  | 0, cs => ([], cs)
  | fuel + 1, cs =>
      match firstSpanF (cs.length + 1) cs with
      | none => ([], cs)
      | some (i, c, rest) =>
          let (sp, rem) := findSpansF fuel rest
          ((i, c) :: sp, rem)

/-- Spans of a buffer (each match consumes at least three characters,
so `|buffer| + 1` rounds of `firstSpanF` always suffice). -/
def findSpans (cs : List Char) : List (List Char × List Char) × List Char :=
  findSpansF (cs.length + 1) cs

/-- `StreamParser` events. -/
inductive SPEvent where
  | chunk (id : List Char) (data : Value)
  | errEv (e : Err)
  | endEv
  deriving Repr

/-- `StreamParser` state: append-only buffer, chunk counter, ended
flag. -/
structure SPState where
  buffer : List Char
  chunkId : Nat
  ended : Bool

/-- The fresh stream parser. -/
def initSP : SPState :=
  ⟨[], 0, false⟩

/-- The per-span body of `processBuffer`'s loop: parse the content
through the full pipeline; on success emit a chunk event whose id is
the span id if nonempty, else the stringified counter (incremented only
then); on failure emit an error event for that chunk only. -/
def spansEmit (opts : POpts) : Nat → List (List Char × List Char) → List SPEvent × Nat
  | cid, [] => ([], cid)
  | cid, (i, c) :: rest =>
      match parseFull opts c with
      | .ok v =>
          let (idText, cid') := if i.isEmpty then (natToChars cid, cid + 1) else (i, cid)
          let (evs, cidF) := spansEmit opts cid' rest
          (.chunk idText v :: evs, cidF)
      | .error e =>
          let (evs, cidF) := spansEmit opts cid rest
          (.errEv e :: evs, cidF)

/-- `StreamParser.processBuffer`: scan and emit every complete span,
drop the consumed part of the buffer; when forcing (stream end), give
the remaining buffer one best-effort parse — success emits a chunk with
a counter id and clears the buffer, a decode failure is swallowed. -/
def processBuffer (opts : POpts) (st : SPState) (force : Bool) : List SPEvent × SPState :=
  let (spans, rem) := findSpans st.buffer
  let (evs, cid) := spansEmit opts st.chunkId spans
  let st1 : SPState := ⟨rem, cid, st.ended⟩
  if force && !(jsTrim st1.buffer).isEmpty then
    match parseFull opts st1.buffer with
    | .ok v =>
        (evs ++ [.chunk (natToChars st1.chunkId) v], ⟨[], st1.chunkId + 1, st1.ended⟩)
    | .error _ => (evs, st1)
  else (evs, st1)

/-- `StreamParser.write`: append and process (throws on an ended
stream, modelled as `none`). -/
def spWrite (opts : POpts) (st : SPState) (data : List Char) :
    Option (List SPEvent × SPState) :=
  if st.ended then none
  else some (processBuffer opts ⟨st.buffer ++ data, st.chunkId, st.ended⟩ false)

/-- `StreamParser.end`: flush the remaining buffer (best effort, only
when its trimmed text is nonempty) and emit the end event. -/
def spEnd (opts : POpts) (st : SPState) : List SPEvent × SPState :=
  if st.ended then ([], st)
  else
    let st1 : SPState := ⟨st.buffer, st.chunkId, true⟩
    let (evs, st2) :=
      if !(jsTrim st1.buffer).isEmpty then processBuffer opts st1 true else ([], st1)
    (evs ++ [.endEv], st2)

/-- A whole stream session: the given writes, then `end`; the emitted
event sequence.  (`StreamParser`'s constructor forces
`streaming: true` in its parser options.) -/
def runWrites (opts : POpts) (ws : List (List Char)) : List SPEvent :=
  let opts := { opts with streaming := true }
  let (evs, st) := ws.foldl
    (fun (acc : List SPEvent × SPState) w =>
      match spWrite opts acc.2 w with
      | some (evs, st') => (acc.1 ++ evs, st')
      | none => acc)
    ([], initSP)
  let (evs2, _) := spEnd opts st
  evs ++ evs2

/-- Event kind discriminant, used to state event-sequence
inequalities without decidable equality on values. -/
def evKind : SPEvent → Nat
  | .chunk _ _ => 0
  | .errEv _ => 1
  | .endEv => 2

/-- `decode(encode(v))`: serialize with default options, then parse
with default options. -/
def encodeDecode (v : Value) : Except Err Value := do
  parseFull {} (← stringify {} v)

/-- The spans of a buffer occur in it from left to right: the first
span's `|id|content` lies in the buffer, and the remaining spans lie in
the suffix after it. -/
def SpansEmbed : List Char → List (List Char × List Char) → Prop
  | _, [] => True
  | cs, (i, c) :: rest =>
      ∃ pre suf, cs = pre ++ '|' :: (i ++ '|' :: (c ++ suf)) ∧ SpansEmbed suf rest

/-- The quoting predicates exactly as the claim lists them: empty;
contains newline, tab or carriage return; contains a literal `:`;
leading or trailing space; exactly `true`, `false` or `null`; or the
numeric-literal shape. -/
def claimQuotePred (s : List Char) : Bool :=
  s.isEmpty || s.any (fun c => c = '\n' || c = '\t' || c = '\r') || s.contains ':' ||
    s.head? = some ' ' || s.getLast? = some ' ' ||
    s = "true".toList || s = "false".toList || s = "null".toList || numericShape s

/-- The guard under which `Lexer.nextToken` enters `scanNumber`: a
digit, or `-` followed by a digit. -/
def numStartB : List Char → Bool
  | [] => false
  | c :: t => isDigit c || (c = '-' && (match t with | d :: _ => isDigit d | [] => false))

/-- The lexer's balance potential: pending dedents plus indent-stack
entries above the base level.  Each INDENT raises it by one, each
DEDENT lowers it by one, and it is zero when EOF is emitted. -/
def pot (st : LexState) : Nat :=
  st.pending + (st.stack.length - 1)

/-- Number of tokens of a kind in a token list. -/
def countType (ty : TokenType) (ts : List Token) : Nat :=
  (ts.filter (·.type = ty)).length

/-!  ## Claim theorems  -/

example : tokenize "a\n  b 1".toList =
    .ok [⟨.IDENTIFIER, ['a']⟩, ⟨.NEWLINE, ['\n']⟩, ⟨.INDENT, [' ', ' ']⟩,
      ⟨.IDENTIFIER, ['b']⟩, ⟨.NUMBER, ['1']⟩, ⟨.DEDENT, []⟩, ⟨.EOF, []⟩] := by
  rfl

example : parseS "null" = .ok .vnull := by rfl
example : parseS "42" = .ok (.vnum (.int 42)) := by rfl
example : parseS "name John\nage 30" =
    .ok (.vobj [("name".toList, .vstr "John".toList), ("age".toList, .vnum (.int 30))]) := by
  rfl
example : parseS "items 1 2 3" = .error .unknownNode := by rfl

example : stringify {} (.vstr "hello".toList) = .ok "hello".toList := by rfl
example : stringify {} (.vstr "hello world".toList) = .ok "hello world".toList := by rfl
example : stringify {} (.varr [.vnum (.int 1), .vnum (.int 2), .vnum (.int 3)]) =
    .ok "1 2 3".toList := by rfl
example : stringify { compact := true }
    (.vobj [("x".toList, .vnum (.int 10)), ("y".toList, .vnum (.int 20))]) =
    .ok "x:10 y:20".toList := by rfl

example : (runWrites {} ["|c1|\nname John\nx 1".toList]).map evKind = [0, 2] := by rfl

/-- C1, counterexample: the round-trip `decode(encode(v)) == v` fails
at `v = []` (a Value containing no non-finite numbers): the empty Array
encodes to the empty string, which decodes to Null, and Null is not
equal to `[]` under the claim's value equality. -/
theorem c1_roundtrip_empty_array_cex :
    stringify {} (.varr []) = .ok [] ∧
    encodeDecode (.varr []) = .ok .vnull ∧
    veqF 5 .vnull (.varr []) = false := by
  refine ⟨rfl, rfl, rfl⟩

/-- C2, counterexample: the same cumulative input `"|a|k 1\nj 2"`,
split as one write versus two writes (`"|a|k 1\n"` then `"j 2"`),
produces different event sequences: one chunk event with value
`{k:1, j:2}` versus one error event — chunk contents are cut at the end
of the current buffer, so chunk boundaries do depend on write-call
boundaries. -/
theorem c2_write_split_cex :
    "|a|k 1\nj 2".toList = "|a|k 1\n".toList ++ "j 2".toList ∧
    runWrites {} ["|a|k 1\nj 2".toList] =
      [.chunk ['a'] (.vobj [(['k'], .vnum (.int 1)), (['j'], .vnum (.int 2))]), .endEv] ∧
    (runWrites {} ["|a|k 1\n".toList, "j 2".toList]).map evKind = [1, 2] ∧
    runWrites {} ["|a|k 1\nj 2".toList] ≠ runWrites {} ["|a|k 1\n".toList, "j 2".toList] := by
  refine ⟨rfl, rfl, rfl, ?_⟩
  have hne : (runWrites {} ["|a|k 1\nj 2".toList]).map evKind ≠
      (runWrites {} ["|a|k 1\n".toList, "j 2".toList]).map evKind := by decide
  exact fun h => hne (congrArg (List.map evKind) h)

theorem firstSpanF_decomp :
    ∀ (fuel : Nat) (cs i c r : List Char), firstSpanF fuel cs = some (i, c, r) →
      ∃ pre, cs = pre ++ '|' :: (i ++ '|' :: (c ++ r)) := by
  intro fuel
  induction fuel with
  | zero => intro cs i c r h; simp [firstSpanF] at h
  | succ fuel ih =>
      intro cs i c r h
      match cs with
      | [] => simp [firstSpanF] at h
      | c0 :: t =>
          rw [firstSpanF] at h
          by_cases hc0 : c0 = '|'
          · rw [if_pos hc0] at h
            rcases hd : t.dropWhile notPipe with _ | ⟨p, t2⟩
            · rw [hd] at h; simp at h
            · rw [hd] at h
              replace h :
                  (if p = '|' then
                    (if (t2.takeWhile notPipe).isEmpty = true then firstSpanF fuel ('|' :: t2)
                     else some (t.takeWhile notPipe, t2.takeWhile notPipe,
                       t2.dropWhile notPipe))
                   else none) = some (i, c, r) := h
              by_cases hp : p = '|'
              · rw [if_pos hp] at h
                have ht : t.takeWhile notPipe ++ t.dropWhile notPipe = t :=
                  List.takeWhile_append_dropWhile notPipe t
                by_cases hemp : (t2.takeWhile notPipe).isEmpty = true
                · rw [if_pos hemp] at h
                  obtain ⟨pre', hpre'⟩ := ih _ _ _ _ h
                  refine ⟨'|' :: (t.takeWhile notPipe ++ pre'), ?_⟩
                  subst hc0
                  calc '|' :: t = '|' :: (t.takeWhile notPipe ++ t.dropWhile notPipe) := by
                        rw [ht]
                    _ = '|' :: (t.takeWhile notPipe ++ ('|' :: t2)) := by rw [hd, hp]
                    _ = ('|' :: (t.takeWhile notPipe ++ pre')) ++
                          '|' :: (i ++ '|' :: (c ++ r)) := by
                        rw [hpre']; simp
                · rw [if_neg hemp] at h
                  rw [Option.some.injEq, Prod.mk.injEq, Prod.mk.injEq] at h
                  obtain ⟨h1, h2, h3⟩ := h
                  subst h1; subst h2; subst h3
                  have ht2 : t2.takeWhile notPipe ++ t2.dropWhile notPipe = t2 :=
                    List.takeWhile_append_dropWhile notPipe t2
                  refine ⟨[], ?_⟩
                  subst hc0
                  calc '|' :: t = '|' :: (t.takeWhile notPipe ++ ('|' :: t2)) := by
                        conv_lhs => rw [← ht]
                        rw [hd, hp]
                    _ = [] ++ '|' :: (t.takeWhile notPipe ++
                          '|' :: (t2.takeWhile notPipe ++ t2.dropWhile notPipe)) := by
                        rw [ht2]; simp [hp]
              · rw [if_neg hp] at h; simp at h
          · rw [if_neg hc0] at h
            obtain ⟨pre', hpre'⟩ := ih _ _ _ _ h
            exact ⟨c0 :: pre', by rw [hpre']; simp⟩

theorem findSpansF_embed :
    ∀ (fuel : Nat) (cs : List Char), SpansEmbed cs (findSpansF fuel cs).1 := by
  intro fuel
  induction fuel with
  | zero => intro cs; simp [findSpansF, SpansEmbed]
  | succ fuel ih =>
      intro cs
      rw [findSpansF]
      rcases hf : firstSpanF (cs.length + 1) cs with _ | ⟨i, c, rest⟩
      · simp [SpansEmbed]
      · obtain ⟨pre, hpre⟩ := firstSpanF_decomp _ _ _ _ _ hf
        simp only
        exact ⟨pre, rest, hpre, ih rest⟩

/-- One event is emitted per span, in span order. -/
theorem spansEmit_length :
    ∀ (opts : POpts) (cid : Nat) (spans : List (List Char × List Char)),
      ((spansEmit opts cid spans).1).length = spans.length := by
  intro opts cid spans
  induction spans generalizing cid with
  | nil => simp [spansEmit]
  | cons sp rest ih =>
      obtain ⟨i, c⟩ := sp
      rw [spansEmit]
      rcases hp : parseFull opts c with e | v <;> simp [hp, ih]

/-- C2, amended: within one `processBuffer` scan, the found spans
decompose the buffer from left to right — chunks are emitted strictly
in the order their `|id|` delimiters appear in the buffer, one event
per span — but (see the counterexample) the event sequence is not
invariant under re-splitting the cumulative input across `write`
calls. -/
theorem c2_chunk_order_amended :
    (∀ cs : List Char, SpansEmbed cs (findSpans cs).1) ∧
    (∀ (opts : POpts) (cid : Nat) (spans : List (List Char × List Char)),
      ((spansEmit opts cid spans).1).length = spans.length) := by
  exact ⟨fun cs => findSpansF_embed _ cs, spansEmit_length⟩

/-- C3, counterexample: `decode("a 1\na 2")` does not fail with a
duplicate-key error under the default options; it returns `{a: 2}`.
(The top-level parse loop of `Parser.parse` performs no duplicate
tracking; only `parseIndentedBlock` does.) -/
theorem c3_duplicate_default_cex :
    parseS "a 1\na 2" = .ok (.vobj [(['a'], .vnum (.int 2))]) := by
  rfl

/-- C3, amended: `decode("a 1\na 2")` yields `{a: 2}` (last wins)
whether or not duplicate keys are allowed — the per-block duplicate
tracking exists only in `parseIndentedBlock`, which text input reaches
only through the `|id|` chunk form; there, a repeated key is a
duplicate-key ParseError by default, and with `allowDuplicateKeys: true`
the later occurrence overwrites the earlier one. -/
theorem c3_duplicate_keys_amended :
    parseFull {} "a 1\na 2".toList = .ok (.vobj [(['a'], .vnum (.int 2))]) ∧
    parseFull { allowDuplicateKeys := true } "a 1\na 2".toList =
      .ok (.vobj [(['a'], .vnum (.int 2))]) ∧
    parseFull {} "|x|\n  a 1\n  a 2".toList = .error (.dupKey ['a']) ∧
    parseFull { allowDuplicateKeys := true } "|x|\n  a 1\n  a 2".toList =
      .ok (.vobj [(['a'], .vnum (.int 2))]) := by
  refine ⟨rfl, rfl, rfl, rfl⟩

/-- C5: the code does not decode the claimed table document to the
claimed value.  `checkAhead(NEWLINE, INDENT)` first skips every
newline and then still requires a NEWLINE, so it is never satisfied on
lexed input and `parseTable` is unreachable from text; each indented
row instead becomes top-level junk.  The token-level table machinery
itself behaves exactly as the claim says (headers assigned
positionally; a short row yields a record with fewer keys; extra row
tokens are ignored), shown here on token inputs handed directly to
`parseTableP`.  The decoded value for the claim's document differs from
the claimed `{users: [{name:"Alice", age:25}, {name:"Bob", age:30}]}`. -/
theorem c5_table_decode_bug :
    parseS "users name age\n  Alice 25\n  Bob 30" =
      .ok (.vobj
        [("users".toList, .varr [.vstr "name".toList, .vstr "age".toList]),
         (['1'], .vstr [' ', ' ']),
         ("Alice".toList, .vnum (.int 25)),
         ("Bob".toList, .vnum (.int 30)),
         (['4'], .vstr [])]) ∧
    veqF 6
      (.vobj
        [("users".toList, .varr [.vstr "name".toList, .vstr "age".toList]),
         (['1'], .vstr [' ', ' ']),
         ("Alice".toList, .vnum (.int 25)),
         ("Bob".toList, .vnum (.int 30)),
         (['4'], .vstr [])])
      (.vobj [("users".toList, .varr
        [.vobj [("name".toList, .vstr "Alice".toList), ("age".toList, .vnum (.int 25))],
         .vobj [("name".toList, .vstr "Bob".toList), ("age".toList, .vnum (.int 30))]])]) =
      false ∧
    parseTableP 20 {} 0 ["name".toList, "age".toList] []
      [⟨.IDENTIFIER, "Alice".toList⟩, ⟨.NUMBER, "25".toList⟩, ⟨.NEWLINE, ['\n']⟩,
       ⟨.IDENTIFIER, "Bob".toList⟩, ⟨.NUMBER, "30".toList⟩, ⟨.DEDENT, []⟩, ⟨.EOF, []⟩] =
      .ok (.arrN
        [.objN [("name".toList, .literal (.vstr "Alice".toList) .stringT),
                ("age".toList, .literal (.vnum (.int 25)) .numberT)],
         .objN [("name".toList, .literal (.vstr "Bob".toList) .stringT),
                ("age".toList, .literal (.vnum (.int 30)) .numberT)]],
        [⟨.EOF, []⟩]) ∧
    parseTableP 20 {} 0 ["name".toList, "age".toList] []
      [⟨.IDENTIFIER, "Alice".toList⟩, ⟨.NEWLINE, ['\n']⟩,
       ⟨.IDENTIFIER, "Bob".toList⟩, ⟨.NUMBER, "30".toList⟩, ⟨.IDENTIFIER, "extra".toList⟩,
       ⟨.DEDENT, []⟩, ⟨.EOF, []⟩] =
      .ok (.arrN
        [.objN [("name".toList, .literal (.vstr "Alice".toList) .stringT)],
         .objN [("name".toList, .literal (.vstr "Bob".toList) .stringT),
                ("age".toList, .literal (.vnum (.int 30)) .numberT)]],
        [⟨.EOF, []⟩]) := by
  refine ⟨rfl, rfl, rfl, rfl⟩

/-- C6: `evaluateRoot` does return Null for zero children and the
child's evaluation for exactly one child, and `'42'` decodes to the
bare number — but a one-child Root whose child is a Property does not
decode to a one-key Record: `evaluate` has no PROPERTY case, so
`decode("name John")` raises the Unknown-AST-node-type error (the
repo's own test `parse('hello') === 'hello'` exercises the same
single-Property shape and fails for the same reason). -/
theorem c6_root_evaluation_bug :
    (∀ (fuel : Nat) (anchors : Anchors), evalP (fuel + 1) anchors (.root []) =
      .ok (.vnull, anchors)) ∧
    (∀ (fuel : Nat) (anchors : Anchors) (c : Node),
      evalP (fuel + 1) anchors (.root [c]) = evalP fuel anchors c) ∧
    parseS "42" = .ok (.vnum (.int 42)) ∧
    parseS "name John" = .error .unknownNode := by
  refine ⟨fun _ _ => rfl, fun _ _ _ => rfl, rfl, rfl⟩

/-- C7: a chain of indented blocks deeper than `maxDepth` does *not*
always fail — the nested-object branch of `parseKeyValue` requires an
INDENT as the very next token, but the lexer always emits the line's
NEWLINE first, so `parseIndentedBlock` (the only depth-checked point)
is unreachable from plain text and the repo's own max-depth test
document parses without error even at `maxDepth 3`.  The depth check
does fire through the one reachable path (the `|id|` chunk form), and
it fires when the nesting *reaches* `maxDepth` (depth 1 with
`maxDepth 1`), not only beyond it. -/
theorem c7_maxdepth_unreachable_bug :
    (parseFull { maxDepth := 3 }
      "a\n  b\n    c\n      d\n        e\n          f 1".toList).toOption.isSome = true ∧
    parseFull { maxDepth := 1 } "|x|\n  a 1".toList = .error .maxDepth := by
  refine ⟨rfl, rfl⟩

/-- C10, counterexample: an empty-Array-valued record field does not
render as the bare key: `serializeKeyValue` reaches the
`isArrayOfSimpleObjects` branch (vacuously true for `[]`) before the
`value.length === 0` branch, so the field renders as the key followed
by a newline. -/
theorem c10_empty_array_render_cex :
    serializeKeyValueF 100 {} 0 ['a'] (.varr []) = .ok ['a', '\n'] ∧
    (['a', '\n'] : List Char) ≠ ['a'] := by
  exact ⟨rfl, by decide⟩

/-- C10, amended: serializing the empty Array at top level produces the
empty string, and an empty-Array-valued record field renders as the
bare key followed by a newline and no value text (via the vacuous
inline-objects branch; the dedicated `value.length === 0` bare-key
branch is unreachable), e.g.
`stringify({a: [], b: 1}) = "a\n\nb 1"` — so an empty Array still
leaves no value text that distinguishes it from a null-valued field's
`null` literal or an absent key. -/
theorem c10_empty_array_amended :
    stringify {} (.varr []) = .ok [] ∧
    (∀ (f lvl : Nat) (opts : SOpts) (k : List Char),
      serializeKeyValueF (f + 3) opts lvl k (.varr []) = .ok (k ++ ['\n'])) ∧
    stringify {} (.vobj [(['a'], .varr []), (['b'], .vnum (.int 1))]) =
      .ok "a\n\nb 1".toList := by
  refine ⟨rfl, fun _ _ _ _ => rfl, rfl⟩

/-- C4, counterexample: `"a b"` satisfies none of the quoting
predicates (its space is internal, not leading or trailing), so it is
emitted unquoted — but it does not round-trip: decoding `"a b"` does
not return the string `"a b"` (the text parses as a key line and its
one-child Property root then fails evaluation). -/
theorem c4_unquoted_roundtrip_cex :
    needsQuoting "a b".toList = false ∧
    stringify {} (.vstr "a b".toList) = .ok "a b".toList ∧
    parseFull {} "a b".toList = .error .unknownNode ∧
    ∀ v, parseFull {} "a b".toList ≠ .ok v := by
  refine ⟨rfl, rfl, rfl, ?_⟩
  intro v h
  rw [(rfl : parseFull {} "a b".toList = .error .unknownNode)] at h
  exact Except.noConfusion h

theorem escapeChars_length (s : List Char) : s.length ≤ (escapeChars s).length := by
  induction s with
  | nil => simp [escapeChars]
  | cons c t ih =>
      have hc : 1 ≤ (escChar c).length := by
        unfold escChar; split_ifs <;> simp
      simp only [escapeChars, List.length_cons, List.length_append]
      omega

theorem getLast_space_iff (s : List Char) :
    ((match s.getLast? with | some c => decide (c = ' ') | none => false) = true) ↔
      s.getLast? = some ' ' := by
  cases h : s.getLast? with
  | none => simp
  | some c => simp

theorem needsQuoting_eq_claim (s : List Char) : needsQuoting s = claimQuotePred s := by
  unfold needsQuoting claimQuotePred
  split_ifs with h1 h2 h3 h4 h5 h6 <;>
    simp_all [List.isEmpty_iff_length_eq_zero, getLast_space_iff] <;>
    cases s <;> simp_all <;> tauto

/-- C4, amended: a string is emitted unquoted (the serializer's output
is the string itself) exactly when `needsQuoting` rejects it, and
`needsQuoting` holds exactly when one of the claim's listed predicates
holds; in particular `stringify("true")` is the quoted `"true"`.  The
claim's further assertion that such strings round-trip is refuted by
the counterexample. -/
theorem c4_quoting_policy_amended :
    (∀ s : List Char, serializeString s = s ↔ needsQuoting s = false) ∧
    (∀ s : List Char, needsQuoting s = claimQuotePred s) ∧
    stringify {} (.vstr "true".toList) = .ok "\"true\"".toList := by
  refine ⟨?_, needsQuoting_eq_claim, rfl⟩
  intro s
  constructor
  · intro h
    by_contra hq
    have hq' : needsQuoting s = true := by
      cases hnq : needsQuoting s
      · exact absurd hnq hq
      · rfl
    have hlen : (serializeString s).length = (quoteString s).length := by
      rw [serializeString, hq']; simp
    have : (quoteString s).length = (escapeChars s).length + 2 := by
      simp [quoteString]
    have hge := escapeChars_length s
    rw [h] at hlen
    omega
  · intro h
    rw [serializeString, h]
    simp

theorem takeWhile_append_of_all {p : Char → Bool} :
    ∀ {l1 : List Char} (l2 : List Char), (∀ c ∈ l1, p c = true) →
      (l1 ++ l2).takeWhile p = l1 ++ l2.takeWhile p := by
  intro l1
  induction l1 with
  | nil => intro l2 _; simp
  | cons a t ih =>
      intro l2 h
      have ha : p a = true := h a (by simp)
      simp only [List.cons_append, List.takeWhile_cons, ha, if_true]
      rw [ih l2 (fun c hc => h c (by simp [hc]))]

theorem dropWhile_append_of_all {p : Char → Bool} :
    ∀ {l1 : List Char} (l2 : List Char), (∀ c ∈ l1, p c = true) →
      (l1 ++ l2).dropWhile p = l2.dropWhile p := by
  intro l1
  induction l1 with
  | nil => intro l2 _; simp
  | cons a t ih =>
      intro l2 h
      have ha : p a = true := h a (by simp)
      simp only [List.cons_append, List.dropWhile_cons, ha, if_true]
      exact ih l2 (fun c hc => h c (by simp [hc]))

theorem isDigit_isWordChar {c : Char} (h : isDigit c = true) : isWordChar c = true := by
  unfold isDigit at h
  unfold isWordChar
  simp [h]

theorem mem_takeWhile_digit_word {t : List Char} {c : Char}
    (h : c ∈ t.takeWhile isDigit) : isWordChar c = true :=
  isDigit_isWordChar (List.mem_takeWhile_imp h)

theorem scanSign_split (cs : List Char) : (scanSign cs).1 ++ (scanSign cs).2 = cs := by
  unfold scanSign
  match cs with
  | [] => simp
  | c :: t => by_cases h : c = '-' <;> simp [h]

theorem scanSign_word (cs : List Char) : ∀ c ∈ (scanSign cs).1, isWordChar c = true := by
  unfold scanSign
  match cs with
  | [] => simp
  | c :: t =>
      by_cases h : c = '-' <;> simp [h] <;> decide

theorem scanFrac_split (cs : List Char) : (scanFrac cs).1 ++ (scanFrac cs).2 = cs := by
  unfold scanFrac
  match cs with
  | [] => simp
  | c :: t =>
      by_cases h : c = '.'
      · match t with
        | [] => simp [h]
        | d :: t' =>
            by_cases hd : isDigit d
            · simp only [h, if_true, hd, List.cons_append]
              rw [List.takeWhile_append_dropWhile]
            · simp [h, hd]
      · simp [h]

theorem scanFrac_word (cs : List Char) : ∀ c ∈ (scanFrac cs).1, isWordChar c = true := by
  unfold scanFrac
  match cs with
  | [] => simp
  | c :: t =>
      by_cases h : c = '.'
      · match t with
        | [] => simp [h]
        | d :: t' =>
            by_cases hd : isDigit d
            · simp only [h, if_true, hd]
              intro c hc
              rcases List.mem_cons.mp hc with rfl | hc'
              · decide
              · exact mem_takeWhile_digit_word hc'
            · simp [h, hd]
      · simp [h]

theorem scanExp_split (cs : List Char) : (scanExp cs).1 ++ (scanExp cs).2 = cs := by
  unfold scanExp
  match cs with
  | [] => simp
  | e :: t =>
      by_cases he : e = 'e' || e = 'E'
      · simp only [he, if_true]
        match t with
        | [] => simp [List.takeWhile_append_dropWhile]
        | s :: t' =>
            by_cases hs : (s = '+' || s = '-' : Bool) = true
            · simp only [hs, if_true, List.cons_append, List.append_assoc, List.nil_append]
              rw [List.takeWhile_append_dropWhile]
            · have hs' : (s = '+' || s = '-' : Bool) = false := by
                simpa using hs
              simp only [hs', Bool.false_eq_true, if_false, List.cons_append,
                List.append_assoc, List.nil_append]
              rw [List.takeWhile_append_dropWhile]
      · simp [he]

theorem scanExp_word (cs : List Char) : ∀ c ∈ (scanExp cs).1, isWordChar c = true := by
  unfold scanExp
  match cs with
  | [] => simp
  | e :: t =>
      by_cases he : e = 'e' || e = 'E'
      · have hew : isWordChar e = true := by
          rcases (by simpa using he : e = 'e' ∨ e = 'E') with rfl | rfl <;> decide
        simp only [he, if_true]
        match t with
        | [] =>
            intro c hc
            rcases List.mem_append.mp hc with hc' | hc'
            · rcases List.mem_singleton.mp hc' with rfl; exact hew
            · exact mem_takeWhile_digit_word hc'
        | s :: t' =>
            by_cases hs : (s = '+' || s = '-' : Bool) = true
            · have hsw : isWordChar s = true := by
                rcases (by simpa using hs : s = '+' ∨ s = '-') with rfl | rfl <;> decide
              simp only [hs, if_true]
              intro c hc
              rcases List.mem_append.mp hc with hc' | hc'
              · rcases List.mem_cons.mp hc' with rfl | hc''
                · exact hew
                · rcases List.mem_singleton.mp hc'' with rfl; exact hsw
              · exact mem_takeWhile_digit_word hc'
            · have hs' : (s = '+' || s = '-' : Bool) = false := by
                simpa using hs
              simp only [hs', Bool.false_eq_true, if_false]
              intro c hc
              rcases List.mem_append.mp hc with hc' | hc'
              · rcases List.mem_singleton.mp hc' with rfl; exact hew
              · exact mem_takeWhile_digit_word hc'
      · simp [he]

theorem numScanText_split (cs : List Char) :
    (numScanText cs).1 ++ (numScanText cs).2 = cs := by
  unfold numScanText
  have h1 := scanSign_split cs
  have h2 := List.takeWhile_append_dropWhile (p := isDigit) (l := (scanSign cs).2)
  have h3 := scanFrac_split ((scanSign cs).2.dropWhile isDigit)
  have h4 := scanExp_split (scanFrac ((scanSign cs).2.dropWhile isDigit)).2
  simp only [List.append_assoc]
  rw [h4, h3, h2, h1]

theorem numScanText_word (cs : List Char) :
    ∀ c ∈ (numScanText cs).1, isWordChar c = true := by
  unfold numScanText
  intro c hc
  simp only [List.append_assoc, List.mem_append] at hc
  rcases hc with hc | hc | hc | hc
  · exact scanSign_word cs c hc
  · exact mem_takeWhile_digit_word hc
  · exact scanFrac_word _ c hc
  · exact scanExp_word _ c hc

/-- C9: when a scan begins as a number and the recognized numeric
literal is immediately followed by a word character, `scanNumber`
returns a single STRING token covering the whole word-character run
(and consumes exactly that run) — never a NUMBER token followed by a
second token; in particular `123abc` lexes to the single STRING token
`123abc`. -/
theorem c9_number_word_string :
    (∀ cs : List Char, numStartB cs = true →
      (match (numScanText cs).2 with | ch :: _ => isWordChar ch | [] => false) = true →
      scanNumber cs = (⟨.STRING, cs.takeWhile isWordChar⟩, cs.dropWhile isWordChar)) ∧
    tokenize "123abc".toList = .ok [⟨.STRING, "123abc".toList⟩, ⟨.EOF, []⟩] := by
  refine ⟨?_, rfl⟩
  intro cs _ hword
  unfold scanNumber
  rcases hr : (numScanText cs).2 with _ | ⟨ch, chrest⟩
  · rw [hr] at hword; simp at hword
  · rw [hr] at hword
    have hword' := numScanText_word cs
    have htake : cs.takeWhile isWordChar =
        (numScanText cs).1 ++ (ch :: chrest).takeWhile isWordChar := by
      conv_lhs => rw [← numScanText_split cs, hr]
      exact takeWhile_append_of_all _ hword'
    have hdrop : cs.dropWhile isWordChar = (ch :: chrest).dropWhile isWordChar := by
      conv_lhs => rw [← numScanText_split cs, hr]
      exact dropWhile_append_of_all _ hword'
    rw [htake, hdrop]
    simp only at hword
    simp only [hword, if_true]

/-- C9 witness at the concrete input `123abc`. -/
theorem c9_number_word_string_witness :
    numStartB "123abc".toList = true ∧
    scanNumber "123abc".toList =
      (⟨.STRING, ("123abc".toList).takeWhile isWordChar⟩,
        ("123abc".toList).dropWhile isWordChar) :=
  ⟨by decide, c9_number_word_string.1 "123abc".toList (by decide) (by decide)⟩

theorem countType_cons (ty : TokenType) (t : Token) (ts : List Token) :
    countType ty (t :: ts) = (if t.type = ty then 1 else 0) + countType ty ts := by
  simp only [countType, List.filter]
  split <;> simp_all [List.length_cons] <;> omega

theorem popLoop_spec (ind : Nat) :
    ∀ (s s' : List Nat) (k : Nat), popLoop ind s = (s', k) →
      s'.length + k = s.length ∧ (s ≠ [] → s' ≠ []) ∧ (k = 0 → s' = s) := by
  intro s
  induction s with
  | nil =>
      intro s' k h
      simp only [popLoop] at h
      injection h with h1 h2
      subst h1; subst h2
      simp
  | cons a t ih =>
      cases t with
      | nil =>
          intro s' k h
          simp only [popLoop] at h
          injection h with h1 h2
          subst h1; subst h2
          simp
      | cons b t2 =>
          intro s' k h
          rw [popLoop] at h
          by_cases hgt : a > ind
          · rw [if_pos hgt] at h
            rcases hp : popLoop ind (b :: t2) with ⟨s1, k1⟩
            replace h : (s1, k1 + 1) = (s', k) := by rw [hp] at h; exact h
            injection h with h1 h2
            subst h1; subst h2
            obtain ⟨hlen, hne, _⟩ := ih s1 k1 hp
            refine ⟨by simp at hlen ⊢; omega, fun _ => hne (by simp), fun hk => by omega⟩
          · rw [if_neg hgt] at h
            injection h with h1 h2
            subst h1; subst h2
            simp

theorem handleIndentation_spec :
    ∀ (cs : List Char) (stack : List Nat) (otok : Option Token) (rest : List Char)
      (stack' : List Nat) (pending' : Nat),
      handleIndentation cs stack = (otok, rest, stack', pending') → stack ≠ [] →
      stack' ≠ [] ∧
      ((otok = none ∧ stack' = stack ∧ pending' = 0) ∨
       (∃ v, otok = some ⟨.INDENT, v⟩ ∧ pending' = 0 ∧ stack'.length = stack.length + 1) ∨
       (otok = some ⟨.DEDENT, []⟩ ∧ pending' + stack'.length + 1 = stack.length)) := by
  intro cs stack otok rest stack' pending' h hne
  unfold handleIndentation at h
  rcases hrest : cs.dropWhile (· = ' ') with _ | ⟨c, t⟩
  · rw [hrest] at h
    obtain ⟨rfl, _, rfl, rfl⟩ : otok = none ∧ rest = [] ∧ stack' = stack ∧ pending' = 0 := by
      refine ⟨?_, ?_, ?_, ?_⟩ <;>
        · have := h.symm
          simp only [Prod.mk.injEq] at this
          tauto
    exact ⟨hne, Or.inl ⟨rfl, rfl, rfl⟩⟩
  · rw [hrest] at h
    replace h :
        (if (c = '\n' || c = '#' : Bool) = true then
          (none, c :: t, stack, (0 : Nat))
         else if (cs.takeWhile (· = ' ')).length > stack.headD 0 then
          (some ⟨.INDENT, List.replicate (cs.takeWhile (· = ' ')).length ' '⟩, c :: t,
            (cs.takeWhile (· = ' ')).length :: stack, 0)
         else if (cs.takeWhile (· = ' ')).length < stack.headD 0 then
          (match popLoop (cs.takeWhile (· = ' ')).length stack with
           | (s1, k) =>
              if k > 0 then (some ⟨.DEDENT, []⟩, c :: t, s1, k - 1)
              else (none, c :: t, s1, 0))
         else (none, c :: t, stack, 0)) = (otok, rest, stack', pending') := h
    by_cases hcn : (c = '\n' || c = '#' : Bool) = true
    · rw [if_pos hcn] at h
      simp only [Prod.mk.injEq] at h
      obtain ⟨rfl, _, rfl, rfl⟩ := h
      exact ⟨hne, Or.inl ⟨rfl, rfl, rfl⟩⟩
    · rw [if_neg hcn] at h
      by_cases hgt : (cs.takeWhile (· = ' ')).length > stack.headD 0
      · rw [if_pos hgt] at h
        simp only [Prod.mk.injEq] at h
        obtain ⟨rfl, _, rfl, rfl⟩ := h
        exact ⟨by simp, Or.inr (Or.inl ⟨_, rfl, rfl, by simp⟩)⟩
      · rw [if_neg hgt] at h
        by_cases hlt : (cs.takeWhile (· = ' ')).length < stack.headD 0
        · rw [if_pos hlt] at h
          rcases hp : popLoop (cs.takeWhile (· = ' ')).length stack with ⟨s1, k1⟩
          obtain ⟨hlen, hne1, hk0⟩ := popLoop_spec _ _ _ _ hp
          replace h :
              (if k1 > 0 then
                (some ⟨.DEDENT, []⟩, c :: t, s1, k1 - 1)
               else (none, c :: t, s1, 0)) = (otok, rest, stack', pending') := by
            rw [hp] at h; exact h
          by_cases hk : k1 > 0
          · rw [if_pos hk] at h
            simp only [Prod.mk.injEq] at h
            obtain ⟨rfl, _, rfl, rfl⟩ := h
            refine ⟨hne1 hne, Or.inr (Or.inr ⟨rfl, by omega⟩)⟩
          · rw [if_neg hk] at h
            simp only [Prod.mk.injEq] at h
            obtain ⟨rfl, _, rfl, rfl⟩ := h
            have : s1 = stack := hk0 (by omega)
            subst this
            exact ⟨hne, Or.inl ⟨rfl, rfl, rfl⟩⟩
        · rw [if_neg hlt] at h
          simp only [Prod.mk.injEq] at h
          obtain ⟨rfl, _, rfl, rfl⟩ := h
          exact ⟨hne, Or.inl ⟨rfl, rfl, rfl⟩⟩

theorem scanNumber_type (cs : List Char) :
    (scanNumber cs).1.type = .NUMBER ∨ (scanNumber cs).1.type = .STRING := by
  unfold scanNumber
  rcases h : (numScanText cs).2 with _ | ⟨c, t⟩
  · simp
  · by_cases hw : isWordChar c = true <;> simp [hw]

theorem scanWord_type (cs : List Char) :
    (scanWord cs).1.type = .BOOLEAN ∨ (scanWord cs).1.type = .NULL ∨
      (scanWord cs).1.type = .DATE ∨ (scanWord cs).1.type = .IDENTIFIER := by
  unfold scanWord
  dsimp only
  split_ifs <;> simp

theorem mainScan_spec :
    ∀ (cs : List Char) (stack : List Nat) (tok : Token) (r : List Char)
      (stack' : List Nat) (als : Bool),
      mainScan cs stack = .ok (tok, r, stack', als) → stack ≠ [] →
      stack' ≠ [] ∧
      ((tok.type = .DEDENT ∧ stack'.length + 1 = stack.length) ∨
       (tok.type = .EOF ∧ stack' = stack ∧ stack.length = 1) ∨
       (tok.type ≠ .INDENT ∧ tok.type ≠ .DEDENT ∧ tok.type ≠ .EOF ∧ stack' = stack)) := by
  intro cs stack tok r stack' als h hne
  unfold mainScan at h
  rcases hd : cs.dropWhile isInlineWS with _ | ⟨c, t⟩
  · rw [hd] at h
    by_cases hlen : stack.length > 1
    · rw [if_pos hlen] at h
      injection h with h'
      injection h' with h1 h'
      injection h' with h2 h'
      injection h' with h3 h4
      subst h1; subst h3
      have : stack.tail.length + 1 = stack.length := by
        cases stack with
        | nil => exact absurd rfl hne
        | cons a s => simp
      refine ⟨?_, Or.inl ⟨rfl, this⟩⟩
      cases stack with
      | nil => exact absurd rfl hne
      | cons a s =>
          simp at hlen
          intro hc
          rw [List.tail_cons] at hc
          subst hc
          simp at hlen
    · rw [if_neg hlen] at h
      injection h with h'
      injection h' with h1 h'
      injection h' with h2 h'
      injection h' with h3 h4
      subst h1; subst h3
      have hlen1 : stack.length = 1 := by
        have : 1 ≤ stack.length := List.length_pos.mpr hne
        omega
      exact ⟨hne, Or.inr (Or.inl ⟨rfl, rfl, hlen1⟩)⟩
  · rw [hd] at h
    dsimp only at h
    split_ifs at h with hc1 hc2 hc3 hc4 hc5 hc6 hc7
    · injection h with h'
      injection h' with h1 h'
      injection h' with h2 h'
      injection h' with h3 h4
      subst h1; subst h3
      have htt : (scanComment t).1.type = .COMMENT := rfl
      exact ⟨hne, Or.inr (Or.inr ⟨by simp [htt], by simp [htt], by simp [htt], rfl⟩)⟩
    · injection h with h'
      injection h' with h1 h'
      injection h' with h2 h'
      injection h' with h3 h4
      subst h1; subst h3
      exact ⟨hne, Or.inr (Or.inr ⟨by simp, by simp, by simp, rfl⟩)⟩
    · injection h with h'
      injection h' with h1 h'
      injection h' with h2 h'
      injection h' with h3 h4
      subst h1; subst h3
      exact ⟨hne, Or.inr (Or.inr ⟨by simp, by simp, by simp, rfl⟩)⟩
    · injection h with h'
      injection h' with h1 h'
      injection h' with h2 h'
      injection h' with h3 h4
      subst h1; subst h3
      exact ⟨hne, Or.inr (Or.inr ⟨by simp, by simp, by simp, rfl⟩)⟩
    · rcases hq : scanQuotedBody t with e | ⟨v, r0⟩ <;> rw [hq] at h
      · exact absurd h (by simp [Bind.bind, Except.bind])
      · replace h : (Except.ok ((⟨.STRING, v⟩ : Token), r0, stack, false) :
            Except Err (Token × List Char × List Nat × Bool)) =
            .ok (tok, r, stack', als) := by
          rw [← h]
          rfl
        injection h with h'
        injection h' with h1 h'
        injection h' with h2 h'
        injection h' with h3 h4
        subst h1; subst h3
        exact ⟨hne, Or.inr (Or.inr ⟨by simp, by simp, by simp, rfl⟩)⟩
    · injection h with h'
      injection h' with h1 h'
      injection h' with h2 h'
      injection h' with h3 h4
      subst h1; subst h3
      have htt := scanNumber_type (c :: t)
      rcases htt with htt | htt <;>
        exact ⟨hne, Or.inr (Or.inr ⟨by simp [htt], by simp [htt], by simp [htt], rfl⟩)⟩
    · injection h with h'
      injection h' with h1 h'
      injection h' with h2 h'
      injection h' with h3 h4
      subst h1; subst h3
      have htt := scanWord_type (c :: t)
      rcases htt with htt | htt | htt | htt <;>
        exact ⟨hne, Or.inr (Or.inr ⟨by simp [htt], by simp [htt], by simp [htt], rfl⟩)⟩

theorem nextToken_spec :
    ∀ (st : LexState) (tok : Token) (st' : LexState),
      nextToken st = .ok (tok, st') → st.stack ≠ [] →
      st'.stack ≠ [] ∧
      ((tok.type = .INDENT ∧ pot st' = pot st + 1) ∨
       (tok.type = .DEDENT ∧ pot st = pot st' + 1) ∨
       (tok.type = .EOF ∧ pot st = 0 ∧ pot st' = 0) ∨
       (tok.type ≠ .INDENT ∧ tok.type ≠ .DEDENT ∧ tok.type ≠ .EOF ∧ pot st' = pot st)) := by
  intro st tok st' h hne
  unfold nextToken at h
  by_cases hp : st.pending > 0
  · rw [if_pos hp] at h
    injection h with h'
    injection h' with h1 h2
    subst h1; subst h2
    refine ⟨hne, Or.inr (Or.inl ⟨rfl, ?_⟩)⟩
    simp only [pot]
    omega
  · rw [if_neg hp] at h
    have hp0 : st.pending = 0 := by omega
    have hstep : ∀ (rest0 : List Char) (stack0 : List Nat), stack0 ≠ [] →
        pot st = st.pending + (stack0.length - 1) →
        (do
          let (tok0, r, stack'', als) ← mainScan rest0 stack0
          (.ok (tok0, (⟨r, stack'', 0, als⟩ : LexState)) :
            Except Err (Token × LexState))) = .ok (tok, st') →
        st'.stack ≠ [] ∧
        ((tok.type = .INDENT ∧ pot st' = pot st + 1) ∨
         (tok.type = .DEDENT ∧ pot st = pot st' + 1) ∨
         (tok.type = .EOF ∧ pot st = 0 ∧ pot st' = 0) ∨
         (tok.type ≠ .INDENT ∧ tok.type ≠ .DEDENT ∧ tok.type ≠ .EOF ∧ pot st' = pot st)) := by
      intro rest0 stack0 hne0 hpot hbind
      rcases hms : mainScan rest0 stack0 with e | ⟨tok0, r, stack'', als⟩
      · rw [hms] at hbind; exact absurd hbind (by simp [Bind.bind, Except.bind])
      · replace hbind : (Except.ok (tok0, (⟨r, stack'', 0, als⟩ : LexState)) :
            Except Err (Token × LexState)) = .ok (tok, st') := by
          rw [← hbind, hms]
          rfl
        injection hbind with h'
        injection h' with h1 h2
        subst h1; subst h2
        obtain ⟨hne'', hcases⟩ := mainScan_spec rest0 stack0 tok0 r stack'' als hms hne0
        have hlen'' : 1 ≤ stack''.length := List.length_pos.mpr hne''
        have hlen0 : 1 ≤ stack0.length := List.length_pos.mpr hne0
        refine ⟨hne'', ?_⟩
        rcases hcases with ⟨hty, hlen⟩ | ⟨hty, heq, hone⟩ | ⟨ht1, ht2, ht3, heq⟩
        · refine Or.inr (Or.inl ⟨hty, ?_⟩)
          simp only [pot] at hpot ⊢
          omega
        · subst heq
          refine Or.inr (Or.inr (Or.inl ⟨hty, ?_, ?_⟩)) <;>
            · simp only [pot] at hpot ⊢
              omega
        · subst heq
          refine Or.inr (Or.inr (Or.inr ⟨ht1, ht2, ht3, ?_⟩))
          simp only [pot] at hpot ⊢
          omega
    by_cases hals : st.atLineStart = true
    · rw [if_pos hals] at h
      rcases hhi : handleIndentation st.rest st.stack with ⟨otok, rest1, stack1, pending1⟩
      rcases otok with _ | tok1
      · replace h :
            (do
              let (tok0, r, stack'', als) ← mainScan rest1 stack1
              (.ok (tok0, (⟨r, stack'', 0, als⟩ : LexState)) :
                Except Err (Token × LexState))) = .ok (tok, st') := by
          rw [← h, hhi]
        obtain ⟨hne1, hcase⟩ := handleIndentation_spec st.rest st.stack none rest1 stack1
          pending1 hhi hne
        rcases hcase with ⟨_, hstack, hpend⟩ | ⟨v, hsome, _⟩ | ⟨hsome, _⟩
        · subst hstack
          exact hstep rest1 st.stack hne (rfl) h
        · exact absurd hsome (by simp)
        · exact absurd hsome (by simp)
      · replace h : (Except.ok (tok1, (⟨rest1, stack1, pending1, false⟩ : LexState)) :
            Except Err (Token × LexState)) = .ok (tok, st') := by
          rw [← h, hhi]
        injection h with h'
        injection h' with h1 h2
        subst h1; subst h2
        obtain ⟨hne1, hcase⟩ := handleIndentation_spec st.rest st.stack (some tok1)
          rest1 stack1 pending1 hhi hne
        have hlen1 : 1 ≤ stack1.length := List.length_pos.mpr hne1
        have hlen0 : 1 ≤ st.stack.length := List.length_pos.mpr hne
        refine ⟨hne1, ?_⟩
        rcases hcase with ⟨hnone, _, _⟩ | ⟨v, hsome, hpend, hlen⟩ | ⟨hsome, hlen⟩
        · exact absurd hnone (by simp)
        · have hty : tok1.type = .INDENT := by
            have := Option.some.inj hsome
            rw [this]
          refine Or.inl ⟨hty, ?_⟩
          simp only [pot]
          omega
        · have hty : tok1.type = .DEDENT := by
            have := Option.some.inj hsome
            rw [this]
          refine Or.inr (Or.inl ⟨hty, ?_⟩)
          simp only [pot]
          omega
    · rw [if_neg hals] at h
      exact hstep st.rest st.stack hne rfl h

theorem tokenizeF_balance :
    ∀ (fuel : Nat) (st : LexState) (ts : List Token), st.stack ≠ [] →
      tokenizeF fuel st = .ok ts →
      countType .INDENT ts + pot st = countType .DEDENT ts := by
  intro fuel
  induction fuel with
  | zero => intro st ts _ h; simp [tokenizeF] at h
  | succ fuel ih =>
      intro st ts hne h
      rw [tokenizeF] at h
      rcases hnt : nextToken st with e | ⟨tok, st'⟩
      · rw [hnt] at h; exact absurd h (by simp [Bind.bind, Except.bind])
      · rw [hnt] at h
        obtain ⟨hne', hcase⟩ := nextToken_spec st tok st' hnt hne
        simp only [Bind.bind, Except.bind] at h
        by_cases hcm : tok.type = .COMMENT
        · rw [if_pos hcm] at h
          have hIH := ih st' ts hne' h
          rcases hcase with ⟨hty, _⟩ | ⟨hty, _⟩ | ⟨hty, _⟩ | ⟨_, _, _, hpe⟩
          · rw [hty] at hcm; exact absurd hcm (by simp)
          · rw [hty] at hcm; exact absurd hcm (by simp)
          · rw [hty] at hcm; exact absurd hcm (by simp)
          · rw [hpe] at hIH; exact hIH
        · rw [if_neg hcm] at h
          by_cases hef : tok.type = .EOF
          · rw [if_pos hef] at h
            injection h with h1
            subst h1
            rcases hcase with ⟨hty, _⟩ | ⟨hty, _⟩ | ⟨_, hpz, _⟩ | ⟨_, _, ht3, _⟩
            · rw [hty] at hef; exact absurd hef (by simp)
            · rw [hty] at hef; exact absurd hef (by simp)
            · rw [hpz]
              simp [countType, hef]
            · exact absurd hef ht3
          · rw [if_neg hef] at h
            rcases htf : tokenizeF fuel st' with e | ts'
            · rw [htf] at h; exact absurd h (by simp [Functor.map, Except.map])
            · replace h : (Except.ok (tok :: ts') : Except Err (List Token)) = .ok ts := by
                rw [← h, htf]
              injection h with h1
              subst h1
              have hIH := ih st' ts' hne' htf
              rcases hcase with ⟨hty, hpe⟩ | ⟨hty, hpe⟩ | ⟨hty, _⟩ | ⟨ht1, ht2, _, hpe⟩
              · rw [countType_cons, countType_cons, hty, if_pos rfl,
                  if_neg (by decide : ¬(TokenType.INDENT = TokenType.DEDENT))]
                omega
              · rw [countType_cons, countType_cons, hty,
                  if_neg (by decide : ¬(TokenType.DEDENT = TokenType.INDENT)), if_pos rfl]
                omega
              · exact absurd hty hef
              · rw [countType_cons, countType_cons, if_neg ht1, if_neg ht2]
                omega

/-- C8: whenever the lexer tokenizes a document without error, the
produced token sequence contains equally many INDENT and DEDENT tokens
(the synthetic end-of-input dedents included). -/
theorem c8_indent_dedent_balance :
    ∀ (cs : List Char) (ts : List Token), tokenize cs = .ok ts →
      countType .INDENT ts = countType .DEDENT ts := by
  intro cs ts h
  have hb := tokenizeF_balance _ _ _ (by simp [initLex]) h
  simpa [pot, initLex] using hb

/-- C8 witness at the concrete document `"a\n  b 1"`. -/
theorem c8_indent_dedent_balance_witness :
    countType .INDENT
        [⟨.IDENTIFIER, ['a']⟩, ⟨.NEWLINE, ['\n']⟩, ⟨.INDENT, [' ', ' ']⟩,
         ⟨.IDENTIFIER, ['b']⟩, ⟨.NUMBER, ['1']⟩, ⟨.DEDENT, []⟩, ⟨.EOF, []⟩] =
      countType .DEDENT
        [⟨.IDENTIFIER, ['a']⟩, ⟨.NEWLINE, ['\n']⟩, ⟨.INDENT, [' ', ' ']⟩,
         ⟨.IDENTIFIER, ['b']⟩, ⟨.NUMBER, ['1']⟩, ⟨.DEDENT, []⟩, ⟨.EOF, []⟩] :=
  c8_indent_dedent_balance "a\n  b 1".toList _ (by rfl)

/-!  ## Round-trip infrastructure (C1)  -/

theorem ebind_ok {α β : Type} (a : α) (f : α → Except Err β) :
    (Except.ok a : Except Err α) >>= f = f a := rfl

theorem isDigit_ne_of {c x : Char} (hc : isDigit c = true) (hx : isDigit x = false) :
    c ≠ x := fun h => by rw [h, hx] at hc; exact Bool.false_ne_true hc

theorem digitChar_facts {n : Nat} (h : n < 10) :
    isDigit (digitChar n) = true ∧ digitVal (digitChar n) = n := by
  interval_cases n <;> exact ⟨by decide, by decide⟩

theorem digitsVal_append (xs : List Char) (d : Char) :
    digitsVal (xs ++ [d]) = 10 * digitsVal xs + digitVal d := by
  unfold digitsVal
  rw [List.foldl_append]
  rfl

theorem natToCharsF_spec : ∀ f n : Nat, n ≤ f →
    natToCharsF f n ≠ [] ∧ (∀ c ∈ natToCharsF f n, isDigit c = true) ∧
      digitsVal (natToCharsF f n) = n := by
  intro f
  induction f with
  | zero =>
      intro n hn
      have h0 : n = 0 := Nat.le_zero.mp hn
      subst h0
      exact ⟨by simp [natToCharsF], by simp [natToCharsF]; decide, by decide⟩
  | succ f ih =>
      intro n hn
      by_cases h10 : n < 10
      · obtain ⟨hd1, hd2⟩ := digitChar_facts h10
        simp only [natToCharsF, if_pos h10]
        refine ⟨by simp, by simpa using hd1, ?_⟩
        show digitsVal [digitChar n] = n
        unfold digitsVal
        simp [hd2]
      · have h1 : n / 10 ≤ f := by omega
        obtain ⟨ihne, ihall, ihval⟩ := ih (n / 10) h1
        simp only [natToCharsF, if_neg h10]
        refine ⟨by simp, ?_, ?_⟩
        · intro c hc
          rcases List.mem_append.mp hc with h | h
          · exact ihall c h
          · have hc' : c = digitChar (n % 10) := by simpa using h
            subst hc'
            exact (digitChar_facts (Nat.mod_lt _ (by norm_num))).1
        · rw [digitsVal_append, ihval,
            (digitChar_facts (show n % 10 < 10 from Nat.mod_lt _ (by norm_num))).2]
          omega

theorem natToChars_spec (n : Nat) :
    natToChars n ≠ [] ∧ (∀ c ∈ natToChars n, isDigit c = true) ∧
      digitsVal (natToChars n) = n :=
  natToCharsF_spec n n le_rfl

theorem takeWhile_of_all {p : Char → Bool} {l : List Char} (h : ∀ c ∈ l, p c = true) :
    l.takeWhile p = l := by
  have := @takeWhile_append_of_all p l [] h
  simpa using this

theorem dropWhile_of_all {p : Char → Bool} {l : List Char} (h : ∀ c ∈ l, p c = true) :
    l.dropWhile p = [] := by
  have := @dropWhile_append_of_all p l [] h
  simpa using this

theorem contains_eq_false {l : List Char} {x : Char} (h : ∀ c ∈ l, c ≠ x) :
    l.contains x = false := by
  induction l with
  | nil => rfl
  | cons a t ih =>
      simp only [List.contains_cons, Bool.or_eq_false_iff]
      exact ⟨by simpa using (h a (by simp)).symm, ih fun c hc => h c (by simp [hc])⟩

theorem isJsSpace_of_digit {c : Char} (h : isDigit c = true) : isJsSpace c = false := by
  have h1 := isDigit_ne_of h (show isDigit ' ' = false by decide)
  have h2 := isDigit_ne_of h (show isDigit '\t' = false by decide)
  have h3 := isDigit_ne_of h (show isDigit '\n' = false by decide)
  have h4 := isDigit_ne_of h (show isDigit '\r' = false by decide)
  simp [isJsSpace, h1, h2, h3, h4]

theorem jsParseInt_digits {d : Char} {t : List Char}
    (hall : ∀ c ∈ d :: t, isDigit c = true) :
    jsParseInt (d :: t) = (digitsVal (d :: t) : Int) := by
  have hd : isDigit d = true := hall d (by simp)
  have hsp : isJsSpace d = false := isJsSpace_of_digit hd
  have hdw : (d :: t).dropWhile isJsSpace = d :: t := by
    simp [List.dropWhile_cons, hsp]
  have hne1 : d ≠ '-' := isDigit_ne_of hd (by decide)
  have hne2 : d ≠ '+' := isDigit_ne_of hd (by decide)
  simp only [jsParseInt, hdw, if_neg hne1, if_neg hne2, takeWhile_of_all hall]

theorem jsParseInt_intToChars (n : Int) : jsParseInt (intToChars n) = n := by
  by_cases hn : n < 0
  · rw [intToChars, if_pos hn]
    obtain ⟨hne, hall, hval⟩ := natToChars_spec n.natAbs
    have hdw : (('-' : Char) :: natToChars n.natAbs).dropWhile isJsSpace =
        '-' :: natToChars n.natAbs := by
      simp [List.dropWhile_cons, show isJsSpace '-' = false from by decide]
    simp only [jsParseInt, hdw]
    simp only [takeWhile_of_all hall, hval, if_true, reduceIte]
    omega
  · rw [intToChars, if_neg hn]
    obtain ⟨hne, hall, hval⟩ := natToChars_spec n.toNat
    obtain ⟨d, t, hds⟩ := List.exists_cons_of_ne_nil hne
    rw [hds] at hall hval ⊢
    rw [jsParseInt_digits hall, hval]
    omega

theorem digit_scan_facts {d : Char} (hd : isDigit d = true) :
    d ≠ ' ' ∧ d ≠ '\n' ∧ d ≠ '#' ∧ d ≠ ':' ∧ d ≠ '|' ∧ d ≠ '"' ∧ d ≠ '-' ∧
      isInlineWS d = false :=
  ⟨isDigit_ne_of hd (by decide), isDigit_ne_of hd (by decide), isDigit_ne_of hd (by decide),
    isDigit_ne_of hd (by decide), isDigit_ne_of hd (by decide), isDigit_ne_of hd (by decide),
    isDigit_ne_of hd (by decide), by
      have h1 := isDigit_ne_of hd (show isDigit ' ' = false by decide)
      have h2 := isDigit_ne_of hd (show isDigit '\t' = false by decide)
      have h3 := isDigit_ne_of hd (show isDigit '\r' = false by decide)
      simp [isInlineWS, h1, h2, h3]⟩

theorem numScanText_digits {sgn : List Char} (hsgn : sgn = [] ∨ sgn = ['-'])
    {d : Char} {t : List Char} (hall : ∀ c ∈ d :: t, isDigit c = true) :
    numScanText (sgn ++ d :: t) = (sgn ++ d :: t, []) := by
  have hd := hall d (by simp)
  have hnd : d ≠ '-' := isDigit_ne_of hd (by decide)
  have hscan : scanSign (sgn ++ d :: t) = (sgn, d :: t) := by
    rcases hsgn with rfl | rfl
    · simp [scanSign, hnd]
    · simp [scanSign]
  simp only [numScanText, hscan, takeWhile_of_all hall, dropWhile_of_all hall]
  simp [scanFrac, scanExp]

theorem scanNumber_digits {sgn : List Char} (hsgn : sgn = [] ∨ sgn = ['-'])
    {d : Char} {t : List Char} (hall : ∀ c ∈ d :: t, isDigit c = true) :
    scanNumber (sgn ++ d :: t) = (⟨.NUMBER, sgn ++ d :: t⟩, []) := by
  simp only [scanNumber, numScanText_digits hsgn hall]

theorem handleIndentation_number {sgn : List Char} (hsgn : sgn = [] ∨ sgn = ['-'])
    {d : Char} {t : List Char} (hall : ∀ c ∈ d :: t, isDigit c = true) :
    handleIndentation (sgn ++ d :: t) [0] = (none, sgn ++ d :: t, [0], 0) := by
  have hd := hall d (by simp)
  obtain ⟨hsp, hnl, hhash, -, -, -, -, -⟩ := digit_scan_facts hd
  rcases hsgn with rfl | rfl
  · simp [handleIndentation, List.takeWhile_cons, List.dropWhile_cons, hsp, hnl, hhash]
  · simp [handleIndentation, List.takeWhile_cons, List.dropWhile_cons]

theorem mainScan_number {sgn : List Char} (hsgn : sgn = [] ∨ sgn = ['-'])
    {d : Char} {t : List Char} (hall : ∀ c ∈ d :: t, isDigit c = true) :
    mainScan (sgn ++ d :: t) [0] = .ok (⟨.NUMBER, sgn ++ d :: t⟩, [], [0], false) := by
  have hd := hall d (by simp)
  obtain ⟨-, hnl, hhash, hcol, hpipe, hquot, hdash, hws⟩ := digit_scan_facts hd
  have hsn := scanNumber_digits hsgn hall
  rcases hsgn with rfl | rfl
  · have hdw : (([] : List Char) ++ d :: t).dropWhile isInlineWS = d :: t := by
      simp [List.dropWhile_cons, hws]
    simp only [mainScan, hdw]
    simp only [List.nil_append] at hsn
    simp [hhash, hnl, hcol, hpipe, hquot, hd, hsn]
  · have hdw : ((['-'] : List Char) ++ d :: t).dropWhile isInlineWS = '-' :: d :: t := by
      simp [List.dropWhile_cons, show isInlineWS '-' = false from by decide]
    simp only [mainScan, hdw]
    simp only [List.cons_append, List.nil_append] at hsn ⊢
    simp [hd, hsn]

theorem nextToken_number {sgn : List Char} (hsgn : sgn = [] ∨ sgn = ['-'])
    {d : Char} {t : List Char} (hall : ∀ c ∈ d :: t, isDigit c = true) :
    nextToken (initLex (sgn ++ d :: t)) =
      .ok (⟨.NUMBER, sgn ++ d :: t⟩, ⟨[], [0], 0, false⟩) := by
  simp only [nextToken, initLex, handleIndentation_number hsgn hall,
    mainScan_number hsgn hall]
  rfl

theorem tokenizeF_two (f : Nat) {st st1 st2 : LexState} {tok : Token}
    (h1 : nextToken st = .ok (tok, st1))
    (hC : tok.type ≠ .COMMENT) (hE : tok.type ≠ .EOF)
    (h2 : nextToken st1 = .ok (⟨.EOF, []⟩, st2)) :
    tokenizeF (f + 2) st = .ok [tok, ⟨.EOF, []⟩] := by
  show tokenizeF (f + 1 + 1) st = _
  simp [tokenizeF, h1, h2, hC, hE, ebind_ok]

theorem tokenize_number {sgn : List Char} (hsgn : sgn = [] ∨ sgn = ['-'])
    {d : Char} {t : List Char} (hall : ∀ c ∈ d :: t, isDigit c = true) :
    tokenize (sgn ++ d :: t) = .ok [⟨.NUMBER, sgn ++ d :: t⟩, ⟨.EOF, []⟩] := by
  have hnt := nextToken_number hsgn hall
  have h2 : nextToken ⟨[], [0], 0, false⟩ = .ok (⟨.EOF, []⟩, ⟨[], [0], 0, false⟩) := rfl
  have hlen : 4 * (sgn ++ d :: t).length + 8 = (4 * (sgn ++ d :: t).length + 6) + 2 := by
    omega
  rw [tokenize, hlen]
  exact tokenizeF_two _ hnt (by simp) (by simp) h2

theorem scanQuotedBody_escape (s : List Char) :
    scanQuotedBody (escapeChars s ++ ['"']) = .ok (s, []) := by
  induction s with
  | nil => rfl
  | cons c t ih =>
      show scanQuotedBody ((escChar c ++ escapeChars t) ++ ['"']) = .ok (c :: t, [])
      rw [List.append_assoc]
      by_cases h1 : c = '"'
      · subst h1; simp [escChar, scanQuotedBody, handleEscape, ih, ebind_ok]
      · by_cases h2 : c = '\\'
        · subst h2; simp [escChar, scanQuotedBody, handleEscape, ih, ebind_ok]
        · by_cases h3 : c = '\n'
          · subst h3; simp [escChar, scanQuotedBody, handleEscape, ih, ebind_ok]
          · by_cases h4 : c = '\t'
            · subst h4; simp [escChar, scanQuotedBody, handleEscape, ih, ebind_ok]
            · by_cases h5 : c = '\r'
              · subst h5; simp [escChar, scanQuotedBody, handleEscape, ih, ebind_ok]
              · have hesc : escChar c = [c] := by simp [escChar, h1, h2, h3, h4, h5]
                rw [hesc, List.singleton_append, scanQuotedBody.eq_def]
                simp [h1, h2, h3, ih, ebind_ok]

theorem mainScan_quoted (s : List Char) :
    mainScan ('"' :: (escapeChars s ++ ['"'])) [0] =
      .ok (⟨.STRING, s⟩, [], [0], false) := by
  show (do
      let (v, r) ← scanQuotedBody (escapeChars s ++ ['"'])
      Except.ok ((⟨.STRING, v⟩ : Token), r, ([0] : List Nat), false)) =
    Except.ok (⟨.STRING, s⟩, [], [0], false)
  rw [scanQuotedBody_escape s]
  rfl

theorem nextToken_quoted (s : List Char) :
    nextToken (initLex ('"' :: (escapeChars s ++ ['"']))) =
      .ok (⟨.STRING, s⟩, ⟨[], [0], 0, false⟩) := by
  show (do
      let (tok, r, stack'', als) ← mainScan ('"' :: (escapeChars s ++ ['"'])) [0]
      Except.ok (tok, (⟨r, stack'', 0, als⟩ : LexState))) =
    Except.ok (⟨.STRING, s⟩, ⟨[], [0], 0, false⟩)
  rw [mainScan_quoted s]
  rfl

theorem tokenize_quoted (s : List Char) :
    tokenize (quoteString s) = .ok [⟨.STRING, s⟩, ⟨.EOF, []⟩] := by
  have hq : quoteString s = '"' :: (escapeChars s ++ ['"']) := rfl
  have hnt := nextToken_quoted s
  have h2 : nextToken ⟨[], [0], 0, false⟩ = .ok (⟨.EOF, []⟩, ⟨[], [0], 0, false⟩) := rfl
  have hlen : 4 * (quoteString s).length + 8 = (4 * (quoteString s).length + 6) + 2 := by
    omega
  rw [tokenize, hlen, hq]
  exact tokenizeF_two _ hnt (by simp) (by simp) h2

theorem parseTopLevelP_lit (f : Nat) {ty : TokenType} {v : List Char} {lit : Node}
    (hty : ty = .NUMBER ∨ ty = .STRING)
    (hlit : tokenToLiteral ⟨ty, v⟩ = .ok lit) :
    parseTopLevelP (f + 1) {} 0 [⟨ty, v⟩, ⟨.EOF, []⟩] = .ok (some lit, [⟨.EOF, []⟩]) := by
  rcases hty with rfl | rfl <;>
    simp [parseTopLevelP, skipNewlinesT, isAtEndP, peekT, checkT, parseLiteralP,
      hlit, ebind_ok]

theorem parseBodyP_lit (f : Nat) {ty : TokenType} {v : List Char} {lit : Node}
    (hty : ty = .NUMBER ∨ ty = .STRING)
    (hlit : tokenToLiteral ⟨ty, v⟩ = .ok lit) :
    parseBodyP (f + 2) {} [⟨ty, v⟩, ⟨.EOF, []⟩] = .ok ([lit], [⟨.EOF, []⟩]) := by
  have htop := parseTopLevelP_lit f hty hlit
  show parseBodyP (f + 1 + 1) {} _ = _
  rcases hty with rfl | rfl <;>
    simp [parseBodyP, isAtEndP, peekT, skipNewlinesT, htop, ebind_ok]

theorem parseP_lit {ty : TokenType} {v : List Char} {lit : Node}
    (hty : ty = .NUMBER ∨ ty = .STRING)
    (hlit : tokenToLiteral ⟨ty, v⟩ = .ok lit) :
    parseP {} [⟨ty, v⟩, ⟨.EOF, []⟩] = .ok (.root [lit]) := by
  have hb := parseBodyP_lit 22 hty hlit
  have hskip : skipNewlinesT [(⟨ty, v⟩ : Token), ⟨.EOF, []⟩] = [⟨ty, v⟩, ⟨.EOF, []⟩] := by
    rcases hty with rfl | rfl <;> rfl
  have hlen : 4 * ([(⟨ty, v⟩ : Token), ⟨.EOF, []⟩]).length + 16 = 22 + 2 := by simp
  rw [parseP, hskip, hlen, hb]
  rfl

/-- C1, amended: for top-level scalar Values the round-trip
`decode(encode(v)) == v` does hold: Null, the two Booleans,
integer-valued Numbers (up to JavaScript's safe-integer magnitude, where
`String(n)` is plain decimal and exact), and every string the serializer
quotes (those satisfying `needsQuoting`) decode from their encoding back
to themselves.  The counterexample theorem shows the claim's universal
form fails at the empty Array. -/
theorem c1_roundtrip_amended :
    encodeDecode .vnull = .ok .vnull ∧
    (∀ b : Bool, encodeDecode (.vbool b) = .ok (.vbool b)) ∧
    (∀ n : Int, n.natAbs ≤ 2 ^ 53 →
      encodeDecode (.vnum (.int n)) = .ok (.vnum (.int n))) ∧
    (∀ s : List Char, needsQuoting s = true →
      encodeDecode (.vstr s) = .ok (.vstr s)) := by
  refine ⟨rfl, fun b => by cases b <;> rfl, fun n _ => ?_, fun s hq => ?_⟩
  · by_cases hn : n < 0
    · obtain ⟨hne, hall0, hval⟩ := natToChars_spec n.natAbs
      obtain ⟨d, t, hds⟩ := List.exists_cons_of_ne_nil hne
      rw [hds] at hall0
      have htxt : intToChars n = '-' :: d :: t := by
        rw [intToChars, if_pos hn, hds]
      have htok : tokenize ('-' :: d :: t) =
          .ok [⟨.NUMBER, '-' :: d :: t⟩, ⟨.EOF, []⟩] := by
        simpa using tokenize_number (Or.inr rfl) hall0
      have hcont : ∀ x : Char, isDigit x = false → x ≠ '-' →
          (('-' : Char) :: d :: t).contains x = false := by
        intro x hx hxm
        apply contains_eq_false
        intro c hc
        rcases List.mem_cons.mp hc with h | h
        · subst h; exact Ne.symm hxm
        · exact isDigit_ne_of (hall0 c h) hx
      have hlit : tokenToLiteral ⟨.NUMBER, '-' :: d :: t⟩ =
          .ok (.literal (.vnum (.int n)) .numberT) := by
        have h1 := hcont '.' (by decide) (by decide)
        have h2 := hcont 'e' (by decide) (by decide)
        have h3 := hcont 'E' (by decide) (by decide)
        simp only [tokenToLiteral, h1, h2, h3]
        rw [← htxt, jsParseInt_intToChars]
        simp
      have hparse := parseP_lit (Or.inl rfl) hlit
      have hser : stringify {} (.vnum (.int n)) = .ok ('-' :: d :: t) := by
        rw [← htxt]; rfl
      simp only [encodeDecode, parseFull, hser, htok, hparse, ebind_ok]
      rfl
    · obtain ⟨hne, hall0, hval⟩ := natToChars_spec n.toNat
      obtain ⟨d, t, hds⟩ := List.exists_cons_of_ne_nil hne
      rw [hds] at hall0
      have htxt : intToChars n = d :: t := by
        rw [intToChars, if_neg hn, hds]
      have htok : tokenize (d :: t) = .ok [⟨.NUMBER, d :: t⟩, ⟨.EOF, []⟩] := by
        simpa using tokenize_number (Or.inl rfl) hall0
      have hcont : ∀ x : Char, isDigit x = false →
          (d :: t).contains x = false := by
        intro x hx
        apply contains_eq_false
        intro c hc
        exact isDigit_ne_of (hall0 c hc) hx
      have hlit : tokenToLiteral ⟨.NUMBER, d :: t⟩ =
          .ok (.literal (.vnum (.int n)) .numberT) := by
        have h1 := hcont '.' (by decide)
        have h2 := hcont 'e' (by decide)
        have h3 := hcont 'E' (by decide)
        simp only [tokenToLiteral, h1, h2, h3]
        rw [← htxt, jsParseInt_intToChars]
        simp
      have hparse := parseP_lit (Or.inl rfl) hlit
      have hser : stringify {} (.vnum (.int n)) = .ok (d :: t) := by
        rw [← htxt]; rfl
      simp only [encodeDecode, parseFull, hser, htok, hparse, ebind_ok]
      rfl
  · have hlit : tokenToLiteral ⟨.STRING, s⟩ = .ok (.literal (.vstr s) .stringT) := rfl
    have hparse := parseP_lit (Or.inr rfl) hlit
    have hser : stringify {} (.vstr s) = .ok (quoteString s) := by
      show serializeValueF (999 + 1) {} 0 true (.vstr s) = _
      simp [serializeValueF, serializeString, hq]
    have htok := tokenize_quoted s
    simp only [encodeDecode, parseFull, hser, htok, hparse, ebind_ok]
    rfl

/-- C1 witness: the amended round-trip at the concrete inputs `true`,
`42` and the quoted string `"a:b"`. -/
theorem c1_roundtrip_amended_witness :
    encodeDecode (.vbool true) = .ok (.vbool true) ∧
    ((42 : Int).natAbs ≤ 2 ^ 53 ∧
      encodeDecode (.vnum (.int 42)) = .ok (.vnum (.int 42))) ∧
    (needsQuoting "a:b".toList = true ∧
      encodeDecode (.vstr "a:b".toList) = .ok (.vstr "a:b".toList)) :=
  ⟨c1_roundtrip_amended.2.1 true,
   ⟨by norm_num, c1_roundtrip_amended.2.2.1 42 (by norm_num)⟩,
   ⟨by decide, c1_roundtrip_amended.2.2.2 "a:b".toList (by decide)⟩⟩

end Soon
